import Mathlib

/-!
# Firefly Analyzer — verification of the Resource Reconciliation Engine

Shallow embedding of `src/firefly_analyzer` (analyzer.py, matcher.py,
diff_converter.py, utils.py).  Python values are modelled by the inductive
`PyVal` (JSON-compatible data: None, bool, int, float, str, list, dict).
Python dicts are insertion-ordered association lists with unique keys
(well-formedness is the predicate `WFb`).  Python float literals are
modelled as exact rationals; `float('inf')`/`float('nan')` literals are not
modelled (JSON resources contain no infinities, and parsed floats are only
emitted into change logs, never compared).  Fallible Python code (statements
that can raise `TypeError`/`ValueError`) is modelled in `Except String`.

The `deepdiff.DeepDiff(old, new, ignore_order=True)` library call is
modelled by `ddiff`: dictionaries are compared key-wise, scalars by
equality (a kind mismatch is a `type_changes` record), and lists are
compared as in deepdiff's ignore-order mode without repetition reporting —
elements that have a deep-equal partner on the other side are matched, the
rest are reported as `iterable_item_added` / `iterable_item_removed`
(deepdiff's similarity-based pairing of leftover items is not modelled; no
theorem below depends on inputs where it would engage).  The category lists
inside a diff follow the traversal order of `ddiff`; no theorem depends on
the order of records within a category.
-/

namespace Firefly

inductive PyVal where
  | none
  | bool (b : Bool)
  | int (n : Int)
  | float (q : ℚ)
  | str (s : String)
  | list (xs : List PyVal)
  | dict (kvs : List (String × PyVal))
deriving Repr

/-! Structural Boolean equality on `PyVal` (Python `==` on JSON-compatible
data; dict equality here is positional, which coincides with Python's
order-insensitive dict equality on the well-formed, consistently-ordered
records used in the theorems below). -/

mutual

def pyBeq : PyVal → PyVal → Bool
  | .none, .none => true
  | .bool a, .bool b => a == b
  | .int a, .int b => a == b
  | .float a, .float b => decide (a = b)
  | .str a, .str b => a == b
  | .list xs, .list ys => pyBeqList xs ys
  | .dict xs, .dict ys => pyBeqKvs xs ys
  | _, _ => false

def pyBeqList : List PyVal → List PyVal → Bool
  | [], [] => true
  | x :: xs, y :: ys => pyBeq x y && pyBeqList xs ys
  | _, _ => false

def pyBeqKvs : List (String × PyVal) → List (String × PyVal) → Bool
  | [], [] => true
  | (k, v) :: xs, (k', v') :: ys => k == k' && pyBeq v v' && pyBeqKvs xs ys
  | _, _ => false

end

mutual

theorem pyBeq_iff_eq : ∀ a b, pyBeq a b = true ↔ a = b
  | .none, .none => by simp [pyBeq]
  | .bool a, .bool b => by simp [pyBeq]
  | .int a, .int b => by simp [pyBeq]
  | .float a, .float b => by simp [pyBeq]
  | .str a, .str b => by simp [pyBeq]
  | .list xs, .list ys => by
    simp only [pyBeq, pyBeqList_iff_eq xs ys]
    exact ⟨fun h => by rw [h], fun h => by injection h⟩
  | .dict xs, .dict ys => by
    simp only [pyBeq, pyBeqKvs_iff_eq xs ys]
    exact ⟨fun h => by rw [h], fun h => by injection h⟩
  | .none, .bool _ | .none, .int _ | .none, .float _ | .none, .str _
  | .none, .list _ | .none, .dict _
  | .bool _, .none | .bool _, .int _ | .bool _, .float _ | .bool _, .str _
  | .bool _, .list _ | .bool _, .dict _
  | .int _, .none | .int _, .bool _ | .int _, .float _ | .int _, .str _
  | .int _, .list _ | .int _, .dict _
  | .float _, .none | .float _, .bool _ | .float _, .int _ | .float _, .str _
  | .float _, .list _ | .float _, .dict _
  | .str _, .none | .str _, .bool _ | .str _, .int _ | .str _, .float _
  | .str _, .list _ | .str _, .dict _
  | .list _, .none | .list _, .bool _ | .list _, .int _ | .list _, .float _
  | .list _, .str _ | .list _, .dict _
  | .dict _, .none | .dict _, .bool _ | .dict _, .int _ | .dict _, .float _
  | .dict _, .str _ | .dict _, .list _ => by simp [pyBeq]

theorem pyBeqList_iff_eq : ∀ xs ys, pyBeqList xs ys = true ↔ xs = ys
  | [], [] => by simp [pyBeqList]
  | x :: xs, y :: ys => by
    simp only [pyBeqList, Bool.and_eq_true, pyBeq_iff_eq x y, pyBeqList_iff_eq xs ys]
    simp
  | [], _ :: _ => by simp [pyBeqList]
  | _ :: _, [] => by simp [pyBeqList]

theorem pyBeqKvs_iff_eq : ∀ xs ys, pyBeqKvs xs ys = true ↔ xs = ys
  | [], [] => by simp [pyBeqKvs]
  | (k, v) :: xs, (k', v') :: ys => by
    simp only [pyBeqKvs, Bool.and_eq_true, pyBeq_iff_eq v v', pyBeqKvs_iff_eq xs ys]
    simp
  | [], _ :: _ => by simp [pyBeqKvs]
  | _ :: _, [] => by simp [pyBeqKvs]

end

instance : DecidableEq PyVal := fun a b =>
  decidable_of_iff (pyBeq a b = true) (pyBeq_iff_eq a b)

deriving instance DecidableEq for Except

/-- A Python resource record: a string-keyed mapping (`Dict[str, Any]`). -/
abbrev Resource := List (String × PyVal)

/-- Python truthiness (`bool(v)`): `None`, `False`, `0`, `0.0`, `""`, `[]`,
`{}` are falsy, everything else truthy. -/
def pyTruthy : PyVal → Bool
  | .none => false
  | .bool b => b
  | .int n => decide (n ≠ 0)
  | .float q => decide (q ≠ 0)
  | .str s => decide (s ≠ "")
  | .list xs => !xs.isEmpty
  | .dict kvs => !kvs.isEmpty

/-- First binding of key `k` in an association list (Python dicts have
unique keys, so this is dict lookup; `Option.none` means the key is
absent). -/
def pyGet (d : List (String × PyVal)) (k : String) : Option PyVal :=
  match d with
  | [] => Option.none
  | (k', v) :: rest => if k' = k then some v else pyGet rest k

/-- Python's `d.get(k)`: the value at `k`, or `None` when absent. -/
def pyGetV (d : List (String × PyVal)) (k : String) : PyVal :=
  (pyGet d k).getD .none

/-! ## utils.py — `normalize_value`

Unicode character classes for Python's `str.isdigit` / `int()` / `float()`:
`str.isdigit` is true for every Unicode digit, including characters such as
the superscripts `'²'` that `int()` and `float()` reject.  The model covers
ASCII digits, the Arabic-Indic decimal digits U+0660–U+0669 (accepted by
`int()` and `float()`), and the superscript/subscript digits (rejected by
both); other exotic Unicode digit characters are treated as non-digits. -/

/-- Digit characters with Unicode `Numeric_Type=Digit` that are *not*
decimal digits: `str.isdigit` accepts them, `int()`/`float()` reject them
(verified against CPython: `int('²')` raises `ValueError`). -/
def isNonDecimalDigit (c : Char) : Bool :=
  c = '¹' || c = '²' || c = '³' ||
  ('⁰' ≤ c && c ≤ '⁹') || ('₀' ≤ c && c ≤ '₉')

/-- Arabic-Indic decimal digits U+0660–U+0669. -/
def isArabicIndicDigit (c : Char) : Bool :=
  '٠' ≤ c && c ≤ '٩'

/-- Python's `str.isdigit()`: non-empty and every character a Unicode
digit. -/
def pyStrIsdigit (s : String) : Bool :=
  !s.isEmpty && s.toList.all fun c =>
    c.isDigit || isArabicIndicDigit c || isNonDecimalDigit c

/-- Value of one decimal-digit character (ASCII or Arabic-Indic). -/
def digitVal (c : Char) : Option Nat :=
  if c.isDigit then some (c.toNat - 48)
  else if isArabicIndicDigit c then some (c.toNat - 0x660)
  else Option.none

/-- Accumulate the value of a decimal-digit string; fails on the first
non-decimal character (this is how `int()` rejects `'²'`). -/
def digitsVal (cs : List Char) (acc : Nat) : Option Nat :=
  match cs with
  | [] => some acc
  | c :: rest =>
    match digitVal c with
    | some d => digitsVal rest (acc * 10 + d)
    | Option.none => Option.none

/-- Python's `int(s)` on a string: optional sign followed by one or more
decimal digits.  (Surrounding whitespace and `_` separators accepted by
CPython are not modelled; `normalize_value` only reaches `int()` on
all-digit strings, which contain neither.) -/
def pyIntParse (s : String) : Option Int :=
  match s.toList with
  | [] => Option.none
  | '-' :: cs =>
    if cs.isEmpty then Option.none
    else (digitsVal cs 0).map (fun n => -(n : Int))
  | '+' :: cs =>
    if cs.isEmpty then Option.none
    else (digitsVal cs 0).map (fun n => (n : Int))
  | cs => (digitsVal cs 0).map (fun n => (n : Int))

/-- Longest prefix of decimal digits, with the rest of the input. -/
def splitDigits (cs : List Char) : List Char × List Char :=
  match cs with
  | [] => ([], [])
  | c :: rest =>
    if (digitVal c).isSome then
      let (ds, tl) := splitDigits rest
      (c :: ds, tl)
    else ([], cs)

/-- Value of a list of decimal-digit characters (junk characters count 0;
callers only pass digit characters). -/
def digitsToNat (cs : List Char) : Nat :=
  cs.foldl (fun acc c => acc * 10 + (digitVal c).getD 0) 0

/-- Python's `float(s)`: optional sign, then `digits [. digits] | . digits`,
then an optional exponent.  (Whitespace, `_` separators and the
`inf`/`nan` literals accepted by CPython are not modelled; no theorem
below depends on such inputs.)  The result is the exact rational value of
the literal — the model does not round to binary floating point. -/
def pyFloatParse (s : String) : Option ℚ :=
  let cs := s.toList
  let (sign, cs) : ℚ × List Char :=
    match cs with
    | '-' :: rest => (-1, rest)
    | '+' :: rest => (1, rest)
    | rest => (1, rest)
  let (ip, cs) := splitDigits cs
  let (fp, cs) : List Char × List Char :=
    match cs with
    | '.' :: rest => splitDigits rest
    | rest => ([], rest)
  if ip.isEmpty && fp.isEmpty then Option.none
  else
    let mantissa : ℚ :=
      (digitsToNat ip : ℚ) + (digitsToNat fp : ℚ) / ((10 : ℚ) ^ fp.length)
    match cs with
    | [] => some (sign * mantissa)
    | 'e' :: rest =>
      match rest with
      | '-' :: ds =>
        if ds.isEmpty || !(ds.all fun c => (digitVal c).isSome) then Option.none
        else some (sign * mantissa / ((10 : ℚ) ^ digitsToNat ds))
      | '+' :: ds =>
        if ds.isEmpty || !(ds.all fun c => (digitVal c).isSome) then Option.none
        else some (sign * mantissa * ((10 : ℚ) ^ digitsToNat ds))
      | ds =>
        if ds.isEmpty || !(ds.all fun c => (digitVal c).isSome) then Option.none
        else some (sign * mantissa * ((10 : ℚ) ^ digitsToNat ds))
    | 'E' :: rest =>
      match rest with
      | '-' :: ds =>
        if ds.isEmpty || !(ds.all fun c => (digitVal c).isSome) then Option.none
        else some (sign * mantissa / ((10 : ℚ) ^ digitsToNat ds))
      | '+' :: ds =>
        if ds.isEmpty || !(ds.all fun c => (digitVal c).isSome) then Option.none
        else some (sign * mantissa * ((10 : ℚ) ^ digitsToNat ds))
      | ds =>
        if ds.isEmpty || !(ds.all fun c => (digitVal c).isSome) then Option.none
        else some (sign * mantissa * ((10 : ℚ) ^ digitsToNat ds))
    | _ => Option.none

/-- `utils.normalize_value`.  The `int(value)` call sits *outside* the
`try`, so a string that `isdigit()` accepts but `int()` rejects raises an
uncaught `ValueError`; the `float(value)` call is wrapped in
`try/except ValueError`, so its failure falls through to returning the
value unchanged. -/
def normalize_value (v : PyVal) : Except String PyVal :=
  match v with
  | .str s =>
    if pyStrIsdigit s then
      match pyIntParse s with
      | some n => .ok (.int n)
      | Option.none => .error "ValueError"
    else
      match pyFloatParse s with
      | some q => .ok (.float q)
      | Option.none => .ok (.str s)
  | w => .ok w


/-! ## matcher.py — `ResourceMatcher` -/

/-- The three identity field names, in the order the source lists them. -/
def cloud_id_fields : List String := ["id", "resource_id", "arn"]

/-- `[cloud_resource.get(field) for field in cloud_id_fields if cloud_resource.get(field)]`:
the truthy identity values of the cloud resource. -/
def cloudIds (cloud : Resource) : List PyVal :=
  cloud_id_fields.filterMap fun f =>
    let v := pyGetV cloud f
    if pyTruthy v then some v else Option.none

/-- `field in iac_resource and iac_resource[field] in cloud_ids`, tried for
each of the three identity fields: the body of `_primary_match`'s scan. -/
def primaryHit (ids : List PyVal) (iac : Resource) : Bool :=
  cloud_id_fields.any fun f =>
    match pyGet iac f with
    | some v => ids.any (· = v)
    | Option.none => false

/-- The `for iac_resource in iac_resources` loop of `_primary_match`:
return the first candidate with a hit. -/
def primaryScan (ids : List PyVal) : List Resource → Option Resource
  | [] => Option.none
  | r :: rest => if primaryHit ids r then some r else primaryScan ids rest

/-- `ResourceMatcher._primary_match`. -/
def primary_match (cloud : Resource) (iac_resources : List Resource) : Option Resource :=
  primaryScan (cloudIds cloud) iac_resources

/-- `resource.get('type') or resource.get('resourceType')`: Python `or`
returns the first operand when truthy, the second otherwise. -/
def derivedType (r : Resource) : PyVal :=
  let t := pyGetV r "type"
  if pyTruthy t then t else pyGetV r "resourceType"

/-- The scan loop of `_secondary_match`. -/
def secondaryScan (ct cn : PyVal) : List Resource → Option Resource
  | [] => Option.none
  | r :: rest =>
    if derivedType r = ct && pyGetV r "name" = cn then some r
    else secondaryScan ct cn rest

/-- `ResourceMatcher._secondary_match`. -/
def secondary_match (cloud : Resource) (iac_resources : List Resource) : Option Resource :=
  let ct := derivedType cloud
  let cn := pyGetV cloud "name"
  if !pyTruthy ct || !pyTruthy cn then Option.none
  else secondaryScan ct cn iac_resources

/-- First scan loop of `_tertiary_match` (name and region both match). -/
def nameRegionScan (cn cr : PyVal) : List Resource → Option Resource
  | [] => Option.none
  | r :: rest =>
    if pyGetV r "name" = cn && pyGetV r "region" = cr then some r
    else nameRegionScan cn cr rest

/-- Fallback scan loop of `_tertiary_match` (name only). -/
def nameScan (cn : PyVal) : List Resource → Option Resource
  | [] => Option.none
  | r :: rest => if pyGetV r "name" = cn then some r else nameScan cn rest

/-- `ResourceMatcher._tertiary_match`. -/
def tertiary_match (cloud : Resource) (iac_resources : List Resource) : Option Resource :=
  let cn := pyGetV cloud "name"
  let cr := pyGetV cloud "region"
  if !pyTruthy cn then Option.none
  else
    match if pyTruthy cr then nameRegionScan cn cr iac_resources else Option.none with
    | some r => some r
    | Option.none => nameScan cn iac_resources

/-- Python truthiness of a matcher result: `None` and the empty dict are
falsy (`if primary_match:` tests the returned dict itself). -/
def optTruthy : Option Resource → Bool
  | Option.none => false
  | some r => !r.isEmpty

/-- `ResourceMatcher.find_matching_iac_resource`: the three-tier cascade,
each tier's result accepted when truthy. -/
def find_matching_iac_resource (cloud : Resource) (iac_resources : List Resource) :
    Option Resource :=
  let p := primary_match cloud iac_resources
  if optTruthy p then p
  else
    let s := secondary_match cloud iac_resources
    if optTruthy s then s
    else
      let t := tertiary_match cloud iac_resources
      if optTruthy t then t else Option.none

/-- `ResourceMatcher.get_match_confidence`.  The nested loops return `1.0`
on the first pair of identity fields (possibly of different names) whose
values are truthy on both sides and equal; otherwise the score accumulates
`0.4`/`0.4`/`0.2` for equality of the derived type, `name` and `region`
values — equality of two absent (`None`) fields counts.  Python float
literals are modelled as exact rationals; the final `min` clamp makes the
returned values coincide. -/
def idShortCircuit (cloud iac : Resource) : Bool :=
  cloud_id_fields.any fun fc => cloud_id_fields.any fun fi =>
    pyTruthy (pyGetV cloud fc) && pyTruthy (pyGetV iac fi) &&
    pyGetV cloud fc = pyGetV iac fi

def get_match_confidence (cloud iac : Resource) : ℚ :=
  if idShortCircuit cloud iac then 1
  else
    let score : ℚ := 0
    let score := if derivedType cloud = derivedType iac then score + 2/5 else score
    let score := if pyGetV cloud "name" = pyGetV iac "name" then score + 2/5 else score
    let score := if pyGetV cloud "region" = pyGetV iac "region" then score + 1/5 else score
    min score 1

/-! ## diff_converter.py — paths

deepdiff addresses a nested location by a bracketed path string such as
`root['tags']['totalAmount']` or `root['security_groups'][0]`.  The model
builds these strings from an inductive path (`Seg`), which is what `ddiff`
records; the converter consumes the rendered strings exactly as the Python
does. -/

inductive Seg where
  | key (k : String)
  | idx (n : Nat)
deriving Repr, DecidableEq

abbrev Path := List Seg

/-- Decimal digit character. -/
def digitChar (d : Nat) : Char :=
  match d with
  | 0 => '0' | 1 => '1' | 2 => '2' | 3 => '3' | 4 => '4'
  | 5 => '5' | 6 => '6' | 7 => '7' | 8 => '8' | _ => '9'

/-- Base-10 digit characters of `n`, most significant first (fuel-indexed
so that it is structurally recursive; the fuel `n` is always enough since
a number has at most `n+1` digits). -/
def natDigitsAux : Nat → Nat → List Char
  | 0, n => [digitChar (n % 10)]
  | fuel + 1, n =>
    if n < 10 then [digitChar n]
    else natDigitsAux fuel (n / 10) ++ [digitChar (n % 10)]

/-- Decimal rendering of a natural number (Python `str(n)` for an index). -/
def natDigits (n : Nat) : List Char := natDigitsAux n n

/-- One deepdiff path segment: `['key']` for a mapping key, `[index]` for a
sequence index. -/
def renderSeg : Seg → List Char
  | .key k => '[' :: '\'' :: (k.toList ++ ['\'', ']'])
  | .idx n => '[' :: (natDigits n ++ [']'])

/-- The bracketed segments of a path. -/
def renderTail (p : Path) : List Char := p.flatMap renderSeg

/-- A full deepdiff path string: `root` followed by the bracketed
segments. -/
def renderPath (p : Path) : String :=
  String.mk ("root".toList ++ renderTail p)

/-- Python's `str.replace(pat, rep)` for a non-empty pattern
`p :: pat`: replace non-overlapping occurrences left to right, continuing
after each replacement. -/
def replaceAllF (p : Char) (pat rep : List Char) : Nat → List Char → List Char
  | _, [] => []
  | 0, cs => cs
  | fuel + 1, c :: rest =>
    if (p :: pat).isPrefixOf (c :: rest) then
      rep ++ replaceAllF p pat rep fuel (rest.drop pat.length)
    else c :: replaceAllF p pat rep fuel rest

def replaceAll (p : Char) (pat rep cs : List Char) : List Char :=
  replaceAllF p pat rep cs.length cs

theorem replaceAllF_fuel (p : Char) (pat rep : List Char) :
    ∀ n cs f, cs.length ≤ n → cs.length ≤ f →
      replaceAllF p pat rep f cs = replaceAllF p pat rep cs.length cs := by
  intro n
  induction n with
  | zero =>
    intro cs f h _
    cases cs with
    | nil => cases f <;> rfl
    | cons c rest => simp at h
  | succ n ih =>
    intro cs f h hf
    cases cs with
    | nil => cases f <;> rfl
    | cons c rest =>
      cases f with
      | zero => simp at hf
      | succ f =>
        simp only [List.length_cons, replaceAllF]
        have hr : rest.length ≤ n := by simp at h; omega
        have hrf : rest.length ≤ f := by simp at hf; omega
        by_cases hp : (p :: pat).isPrefixOf (c :: rest) = true
        · simp only [hp, if_true]
          have hd : (rest.drop pat.length).length ≤ rest.length := by
            simp [List.length_drop]
          rw [ih _ f (le_trans hd hr) (le_trans hd hrf),
            ih _ rest.length (le_trans hd hr) hd]
        · simp only [Bool.not_eq_true] at hp
          simp only [hp, Bool.false_eq_true, if_false]
          rw [ih _ f hr hrf, ih _ rest.length hr le_rfl]

/-- Unfolding law for `replaceAll` on a cons cell. -/
theorem replaceAll_cons (p : Char) (pat rep : List Char) (c : Char) (rest : List Char) :
    replaceAll p pat rep (c :: rest) =
      if (p :: pat).isPrefixOf (c :: rest) then
        rep ++ replaceAll p pat rep (rest.drop pat.length)
      else c :: replaceAll p pat rep rest := by
  show replaceAllF p pat rep (c :: rest).length (c :: rest) = _
  simp only [List.length_cons, replaceAllF]
  by_cases hp : (p :: pat).isPrefixOf (c :: rest) = true
  · simp only [hp, if_true, replaceAll]
    rw [replaceAllF_fuel p pat rep rest.length _ rest.length (by simp [List.length_drop])
      (by simp [List.length_drop])]
  · simp only [Bool.not_eq_true] at hp
    simp only [hp, Bool.false_eq_true, if_false, replaceAll]

theorem replaceAll_nil (p : Char) (pat rep : List Char) :
    replaceAll p pat rep [] = [] := rfl

/-- `if path.startswith("root['"): path = path[6:]`. -/
def stripRoot (cs : List Char) : List Char :=
  if ("root['".toList).isPrefixOf cs then cs.drop 6 else cs

/-- `if path.endswith("']"): path = path[:-2]`. -/
def stripTrailQuote (cs : List Char) : List Char :=
  if (['\'', ']']).isSuffixOf cs then cs.take (cs.length - 2) else cs

/-- `path.replace(c, "")` for a single character: same as removing every
occurrence. -/
def removeChar (ch : Char) (cs : List Char) : List Char := cs.filter fun c => c ≠ ch

/-- `DiffConverter._convert_path_to_key_name`, statement by statement:
strip a leading `root['`; strip a trailing `']`; replace `']['` by `.`;
replace `][` by `.`; remove every remaining `'`, `[` and `]`. -/
def convert_path_to_key_name (path : String) : String :=
  String.mk (removeChar ']' (removeChar '[' (removeChar '\'' (
    replaceAll ']' (['[']) ['.'] (replaceAll '\'' ([']', '[', '\'']) ['.'] (
      stripTrailQuote (stripRoot path.toList)))))))

/-- The characters of one segment in dotted notation. -/
def segChars : Seg → List Char
  | .key k => k.toList
  | .idx n => natDigits n

/-- Dotted notation for a path: segments joined with `.`. -/
def dottedPath : Path → String
  | [] => ""
  | s :: rest => String.mk (segChars s ++ rest.flatMap fun s' => '.' :: segChars s')

/-! ## The deepdiff model -/

/-- Python's runtime type name of a value (`type(v).__name__`), used both
as the "kind" for deciding `values_changed` vs `type_changes` and in the
formatting of type-change entries. -/
def pyTypeName : PyVal → String
  | .none => "NoneType"
  | .bool _ => "bool"
  | .int _ => "int"
  | .float _ => "float"
  | .str _ => "str"
  | .list _ => "list"
  | .dict _ => "dict"

/-- No duplicate keys. -/
def nodupKeys : List String → Bool
  | [] => true
  | k :: rest => !rest.contains k && nodupKeys rest

/-! Executable structural size of a value, used to compute sufficient fuel
for the fuel-indexed recursions below. -/

mutual

def pySize : PyVal → Nat
  | .list xs => pySizeList xs + 1
  | .dict kvs => pySizeKvs kvs + 1
  | _ => 1

def pySizeList : List PyVal → Nat
  | [] => 0
  | x :: xs => pySize x + pySizeList xs + 1

def pySizeKvs : List (String × PyVal) → Nat
  | [] => 0
  | (_, v) :: xs => pySize v + pySizeKvs xs + 1

end

/-- Well-formedness of a value as Python data: every mapping inside has
duplicate-free keys (fuel-indexed for structural recursion; `WFb` below
supplies sufficient fuel). -/
def WFbF : Nat → PyVal → Bool
  | 0, _ => false
  | fuel + 1, .list xs => xs.all fun x => WFbF fuel x
  | fuel + 1, .dict kvs => nodupKeys (kvs.map Prod.fst) && kvs.all fun kv => WFbF fuel kv.2
  | _ + 1, _ => true

def WFb (v : PyVal) : Bool := WFbF (pySize v) v

/-! Deep equality as deepdiff's ignore-order hashing sees it: scalars by
`==`, dicts as mappings (same keys, deep-equal values), lists as unordered
collections *without multiplicity* (deepdiff with `ignore_order=True` and
`report_repetition=False` treats `[1,1]` and `[1]` as equal).  Fuel-indexed
to keep the nested recursion structural; `deepEq` supplies sufficient
fuel. -/

mutual

def deepEqF : Nat → PyVal → PyVal → Bool
  | 0, _, _ => false
  | fuel + 1, a, b =>
    match a, b with
    | .list xs, .list ys => subsetEqF fuel xs ys && subsetEqF fuel ys xs
    | .dict xs, .dict ys => dictSubEqF fuel xs ys && dictSubEqF fuel ys xs
    | a, b => pyBeq a b

def memEqF : Nat → PyVal → List PyVal → Bool
  | 0, _, _ => false
  | _ + 1, _, [] => false
  | fuel + 1, x, y :: ys => deepEqF fuel x y || memEqF fuel x ys

def subsetEqF : Nat → List PyVal → List PyVal → Bool
  | 0, _, _ => false
  | _ + 1, [], _ => true
  | fuel + 1, x :: xs, b => memEqF fuel x b && subsetEqF fuel xs b

def dictSubEqF : Nat → List (String × PyVal) → List (String × PyVal) → Bool
  | 0, _, _ => false
  | _ + 1, [], _ => true
  | fuel + 1, (k, v) :: rest, b =>
    (match pyGet b k with
     | some w => deepEqF fuel v w
     | Option.none => false) && dictSubEqF fuel rest b

end

/-- Deep equality with sufficient fuel. -/
def deepEq (a b : PyVal) : Bool := deepEqF (pySize a + pySize b) a b

/-- `x` has a deep-equal partner in `l`. -/
def memEq (x : PyVal) (l : List PyVal) : Bool := l.any fun y => deepEq x y

/-- The six change categories of a deepdiff text-view result that
`convert_diff_to_changelog` consumes.  `valuesChanged`/`typeChanges`
records are `(path, old_value, new_value)`; `iterAdded`/`iterRemoved`
records are `(path, item)`. -/
structure DDiff where
  valuesChanged : List (Path × PyVal × PyVal)
  dictAdded : List Path
  dictRemoved : List Path
  typeChanges : List (Path × PyVal × PyVal)
  iterAdded : List (Path × PyVal)
  iterRemoved : List (Path × PyVal)
deriving Repr, DecidableEq

def DDiff.empty : DDiff := ⟨[], [], [], [], [], []⟩

def DDiff.append (a b : DDiff) : DDiff :=
  ⟨a.valuesChanged ++ b.valuesChanged, a.dictAdded ++ b.dictAdded,
   a.dictRemoved ++ b.dictRemoved, a.typeChanges ++ b.typeChanges,
   a.iterAdded ++ b.iterAdded, a.iterRemoved ++ b.iterRemoved⟩

instance : Append DDiff := ⟨DDiff.append⟩

/-- `not diff` in Python: the diff has no records at all. -/
def DDiff.isEmpty (d : DDiff) : Bool :=
  d.valuesChanged.isEmpty && d.dictAdded.isEmpty && d.dictRemoved.isEmpty &&
  d.typeChanges.isEmpty && d.iterAdded.isEmpty && d.iterRemoved.isEmpty

/-- The category records contributed by one dict node: keys only in `new`
are `dictionary_item_added`, keys only in `old` are
`dictionary_item_removed`. -/
def dictTop (p : Path) (o n : List (String × PyVal)) : DDiff :=
  ⟨[],
   (n.filter fun kv => (pyGet o kv.1).isNone).map (fun kv => p ++ [Seg.key kv.1]),
   (o.filter fun kv => (pyGet n kv.1).isNone).map (fun kv => p ++ [Seg.key kv.1]),
   [], [], []⟩

/-- The category records of one list node under `ignore_order=True`:
elements of `new` with no deep-equal partner in `old` are
`iterable_item_added` (at their index in `new`), and symmetrically for
`iterable_item_removed`. -/
def listTop (p : Path) (o n : List PyVal) : DDiff :=
  ⟨[], [], [], [],
   (n.enum.filter fun ix => !memEq ix.2 o).map (fun ix => (p ++ [Seg.idx ix.1], ix.2)),
   (o.enum.filter fun ix => !memEq ix.2 n).map (fun ix => (p ++ [Seg.idx ix.1], ix.2))⟩

/-! Recursive structural diff `DeepDiff(old, new, ignore_order=True)` in
text view (fuel-indexed; `ddiff` supplies sufficient fuel):  `ddiffF`
handles one node, `ddiffCommonF` recurses into the keys common to two
dicts, in the order of the old dict. -/

mutual

def ddiffF : Nat → Path → PyVal → PyVal → DDiff
  | 0, _, _, _ => DDiff.empty
  | fuel + 1, p, old, new =>
    match old, new with
    | .dict o, .dict n => dictTop p o n ++ ddiffCommonF fuel p o n
    | .list o, .list n => listTop p o n
    | a, b =>
      if pyTypeName a = pyTypeName b then
        if a = b then DDiff.empty else ⟨[(p, a, b)], [], [], [], [], []⟩
      else ⟨[], [], [], [(p, a, b)], [], []⟩

def ddiffCommonF : Nat → Path → List (String × PyVal) → List (String × PyVal) → DDiff
  | 0, _, _, _ => DDiff.empty
  | _ + 1, _, [], _ => DDiff.empty
  | fuel + 1, p, (k, vo) :: rest, n =>
    (match pyGet n k with
     | some vn => ddiffF fuel (p ++ [Seg.key k]) vo vn
     | Option.none => DDiff.empty) ++ ddiffCommonF fuel p rest n

end

/-- The deepdiff call with sufficient fuel. -/
def ddiff (p : Path) (old new : PyVal) : DDiff := ddiffF (pySize old) p old new

/-! ## diff_converter.py — `DiffConverter` -/

/-! `str(v)` / `repr(v)` rendering, used in the f-strings of
`_process_type_changes` and in `f"{array_path}.{item_id}"`. Scalars are
rendered exactly as CPython does (floats only up to the rational model of
their values; container rendering follows Python's repr shape).  No theorem
depends on the rendered text beyond it being a string. -/

mutual

def pyStrOf : PyVal → String
  | .none => "None"
  | .bool true => "True"
  | .bool false => "False"
  | .int n => toString n
  | .float q => toString q
  | .str s => s
  | .list xs => "[" ++ pyReprList xs ++ "]"
  | .dict kvs => "\x7b" ++ pyReprKvs kvs ++ "\x7d"

def pyReprList : List PyVal → String
  | [] => ""
  | [x] =>
    (match x with
     | .str s => "'" ++ s ++ "'"
     | v => pyStrOf v)
  | x :: rest =>
    (match x with
     | .str s => "'" ++ s ++ "'"
     | v => pyStrOf v) ++ ", " ++ pyReprList rest

def pyReprKvs : List (String × PyVal) → String
  | [] => ""
  | [(k, v)] =>
    "'" ++ k ++ "': " ++
    (match v with
     | .str s => "'" ++ s ++ "'"
     | w => pyStrOf w)
  | (k, v) :: rest =>
    "'" ++ k ++ "': " ++
    (match v with
     | .str s => "'" ++ s ++ "'"
     | w => pyStrOf w) ++ ", " ++ pyReprKvs rest

end

/-- Python iteration `for item in v`: lists yield their elements, strings
their characters (as 1-character strings), dicts their keys; all other
values raise `TypeError`.  This is what `for item in items:` does to the
*single item* deepdiff stores per `iterable_item_added`/`removed` path. -/
def pyIter : PyVal → Except String (List PyVal)
  | .list xs => .ok xs
  | .str s => .ok (s.toList.map fun c => .str (String.mk [c]))
  | .dict kvs => .ok (kvs.map fun kv => .str kv.1)
  | _ => .error "TypeError"

/-- One element of the ChangeLog: `{"KeyName": ..., "CloudValue": ...,
"IacValue": ...}`.  A `PyVal.none` field is Python `None`. -/
structure ChangeEntry where
  KeyName : String
  CloudValue : PyVal
  IacValue : PyVal
deriving Repr, DecidableEq

/-- `DiffConverter._process_values_changed`: `CloudValue` is the normalized
new value, `IacValue` the normalized old value (`normalize_value` can raise
`ValueError` on pathological strings). -/
def process_values_changed (l : List (Path × PyVal × PyVal)) :
    Except String (List ChangeEntry) :=
  l.mapM fun r => do
    let cloudValue ← normalize_value r.2.2
    let iacValue ← normalize_value r.2.1
    pure ⟨convert_path_to_key_name (renderPath r.1), cloudValue, iacValue⟩

/-- `DiffConverter._process_dictionary_item_added`: the sentinel string
`"ADDED"` on the cloud side, `None` on the IaC side. -/
def process_dictionary_item_added (l : List Path) : List ChangeEntry :=
  l.map fun p => ⟨convert_path_to_key_name (renderPath p), .str "ADDED", .none⟩

/-- `DiffConverter._process_dictionary_item_removed`. -/
def process_dictionary_item_removed (l : List Path) : List ChangeEntry :=
  l.map fun p => ⟨convert_path_to_key_name (renderPath p), .none, .str "REMOVED"⟩

/-- `DiffConverter._process_type_changes`: both sides are the f-string
`f"{type(v).__name__}: {v}"` — always a string, never `None`. -/
def process_type_changes (l : List (Path × PyVal × PyVal)) : List ChangeEntry :=
  l.map fun r =>
    ⟨convert_path_to_key_name (renderPath r.1),
     .str (pyTypeName r.2.2 ++ ": " ++ pyStrOf r.2.2),
     .str (pyTypeName r.2.1 ++ ": " ++ pyStrOf r.2.1)⟩

/-- `DiffConverter._process_iterable_item_added`: the code iterates `for
item in items` over the *single* stored item, so a string item contributes
one entry per character, a list item one entry per element, and a
non-iterable item raises `TypeError`. -/
def process_iterable_item_added (l : List (Path × PyVal)) :
    Except String (List ChangeEntry) := do
  let chunks ← l.mapM fun r => do
    let keyName := convert_path_to_key_name (renderPath r.1) ++ "[+]"
    let items ← pyIter r.2
    pure (items.map fun item => (⟨keyName, item, .none⟩ : ChangeEntry))
  pure chunks.flatten

/-- `DiffConverter._process_iterable_item_removed`. -/
def process_iterable_item_removed (l : List (Path × PyVal)) :
    Except String (List ChangeEntry) := do
  let chunks ← l.mapM fun r => do
    let keyName := convert_path_to_key_name (renderPath r.1) ++ "[-]"
    let items ← pyIter r.2
    pure (items.map fun item => (⟨keyName, .none, item⟩ : ChangeEntry))
  pure chunks.flatten

/-- The three identity fields are excluded from comparison via
`exclude_paths=["root['id']", "root['resource_id']", "root['arn']"]` —
top-level paths only.  Pruning those subtrees on both sides is modelled by
dropping the keys before diffing. -/
def dropIds (r : Resource) : Resource :=
  r.filter fun kv => !(kv.1 = "id" || kv.1 = "resource_id" || kv.1 = "arn")

/-- `DiffConverter.convert_diff_to_changelog`: diff the two records with
top-level identity fields excluded, return `[]` for an empty diff, and
otherwise process the six categories in the fixed source order. -/
def convert_diff_to_changelog (cloud_resource iac_resource : Resource) :
    Except String (List ChangeEntry) := do
  let diff := ddiff [] (.dict (dropIds iac_resource)) (.dict (dropIds cloud_resource))
  if diff.isEmpty then pure []
  else do
    let a ← process_values_changed diff.valuesChanged
    let b := process_dictionary_item_added diff.dictAdded
    let c := process_dictionary_item_removed diff.dictRemoved
    let d := process_type_changes diff.typeChanges
    let e ← process_iterable_item_added diff.iterAdded
    let f ← process_iterable_item_removed diff.iterRemoved
    pure (a ++ b ++ c ++ d ++ e ++ f)

/-! ## analyzer.py — `CloudIacAnalyzer` -/

/-- One element of the `analysis` list. -/
structure AnalysisItem where
  CloudResourceItem : Resource
  IacResourceItem : Option Resource
  State : String
  ChangeLog : List ChangeEntry
deriving Repr, DecidableEq

/-- `CloudIacAnalyzer._are_resources_identical`: drop the top-level
identity fields from both records and test the deepdiff result for
emptiness. -/
def are_resources_identical (cloud_resource iac_resource : Resource) : Bool :=
  (ddiff [] (.dict (dropIds iac_resource)) (.dict (dropIds cloud_resource))).isEmpty

/-- `CloudIacAnalyzer._analyze_single_resource`.  `if not matching_iac:`
tests Python truthiness of the matcher result, so an empty dict would also
count as no match. -/
def analyze_single_resource (cloud_resource : Resource)
    (iac_resources : List Resource) : Except String AnalysisItem :=
  match find_matching_iac_resource cloud_resource iac_resources with
  | Option.none => pure ⟨cloud_resource, Option.none, "Missing", []⟩
  | some matching_iac =>
    if matching_iac.isEmpty then pure ⟨cloud_resource, Option.none, "Missing", []⟩
    else if are_resources_identical cloud_resource matching_iac then
      pure ⟨cloud_resource, some matching_iac, "Match", []⟩
    else do
      let change_log ← convert_diff_to_changelog cloud_resource matching_iac
      pure ⟨cloud_resource, some matching_iac, "Modified", change_log⟩

/-- The `summary` object; `matchCount` embeds the Python key `"match"`
(a reserved word here). -/
structure Summary where
  total : Nat
  missing : Nat
  modified : Nat
  matchCount : Nat
deriving Repr, DecidableEq

/-- `CloudIacAnalyzer._generate_summary`. -/
def generate_summary (analysis_results : List AnalysisItem) : Summary :=
  ⟨analysis_results.length,
   analysis_results.countP (fun r => r.State == "Missing"),
   analysis_results.countP (fun r => r.State == "Modified"),
   analysis_results.countP (fun r => r.State == "Match")⟩

/-- The analysis report. -/
structure Report where
  analysis : List AnalysisItem
  summary : Summary
deriving Repr, DecidableEq

/-- `CloudIacAnalyzer.analyze`: one `AnalysisItem` per cloud resource, in
input order, plus the summary. -/
def analyze (cloud_resources iac_resources : List Resource) :
    Except String Report := do
  let analysis_results ← cloud_resources.mapM
    (fun c => analyze_single_resource c iac_resources)
  pure ⟨analysis_results, generate_summary analysis_results⟩

/-! ## diff_converter.py — `compare_arrays_with_id_matching` -/

/-- `isinstance(v, dict)`. -/
def isDict : PyVal → Bool
  | .dict _ => true
  | _ => false

/-- Python's `needle in v` for a string needle: key test for dicts,
substring test for strings, membership test for lists; `TypeError` for
non-containers. -/
def pyContainsStr (needle : String) : PyVal → Except String Bool
  | .dict kvs => pure (kvs.any fun kv => kv.1 = needle)
  | .str s => pure (decide (needle.toList <:+: s.toList))
  | .list xs => pure (xs.any fun x => x = .str needle)
  | _ => .error "TypeError"

/-- Python's `v[k]` for a string key: dict lookup; a string or list raises
`TypeError` for a non-integer index. -/
def pySubscriptStr (v : PyVal) (k : String) : Except String PyVal :=
  match v with
  | .dict kvs =>
    match pyGet kvs k with
    | some w => pure w
    | Option.none => .error "KeyError"
  | _ => .error "TypeError"

/-- Python dict keys may not be lists or dicts (unhashable). -/
def pyHashable : PyVal → Bool
  | .list _ => false
  | .dict _ => false
  | _ => true

/-- `m[k] = v` on a `PyVal`-keyed dict: replace in place or append. -/
def mapSet (m : List (PyVal × PyVal)) (k v : PyVal) : List (PyVal × PyVal) :=
  match m with
  | [] => [(k, v)]
  | (k', v') :: rest => if k' = k then (k', v) :: rest else (k', v') :: mapSet rest k v

/-- `m.get(k)` on a `PyVal`-keyed dict. -/
def mapGet (m : List (PyVal × PyVal)) (k : PyVal) : Option PyVal :=
  match m with
  | [] => Option.none
  | (k', v') :: rest => if k' = k then some v' else mapGet rest k

/-- The map-building loop `for item in array: if "id" in item:
map[item["id"]] = item`.  `"id" in item` raises `TypeError` for
non-container items, `item["id"]` raises for string/list items whose
membership test succeeded, and an unhashable id value raises at the
assignment. -/
def buildIdMap (array : List PyVal) : Except String (List (PyVal × PyVal)) :=
  array.foldlM
    (fun m item => do
      let c ← pyContainsStr "id" item
      if c then do
        let key ← pySubscriptStr item "id"
        if pyHashable key then pure (mapSet m key item)
        else .error "TypeError"
      else pure m)
    []

/-- Truthiness of `map.get(id)` (`if cloud_item and iac_item:`). -/
def optValTruthy : Option PyVal → Bool
  | some v => pyTruthy v
  | Option.none => false

/-- The entries produced for one matched id from the inner
`DeepDiff(iac_item, cloud_item, ignore_order=True)`:
`item_diff.items()` is iterated with `isinstance(changes_dict, dict)`
filtering out `dictionary_item_added`/`removed` (sets of paths, not
dicts); for `values_changed`/`type_changes` the per-path `change` is a
dict, so `change.get("new_value"/"old_value")` are its two sides; for
`iterable_item_added`/`removed` the per-path `change` is the item itself,
so a non-dict item lands on both sides unchanged and a dict item
contributes its `"new_value"`/`"old_value"` entries when present, itself
otherwise.  (The iteration order of the category dict is determinized to
the fixed category order; no theorem depends on it.) -/
def innerEntries (array_path : String) (item_id : PyVal) (d : DDiff) :
    List ChangeEntry :=
  let pre := array_path ++ "." ++ pyStrOf item_id ++ "."
  (d.valuesChanged.map fun r =>
    (⟨pre ++ convert_path_to_key_name (renderPath r.1), r.2.2, r.2.1⟩ : ChangeEntry)) ++
  (d.typeChanges.map fun r =>
    (⟨pre ++ convert_path_to_key_name (renderPath r.1), r.2.2, r.2.1⟩ : ChangeEntry)) ++
  (d.iterAdded.map fun r =>
    match r.2 with
    | .dict kvs =>
      (⟨pre ++ convert_path_to_key_name (renderPath r.1),
        (pyGet kvs "new_value").getD (.dict kvs),
        (pyGet kvs "old_value").getD (.dict kvs)⟩ : ChangeEntry)
    | v => (⟨pre ++ convert_path_to_key_name (renderPath r.1), v, v⟩ : ChangeEntry)) ++
  (d.iterRemoved.map fun r =>
    match r.2 with
    | .dict kvs =>
      (⟨pre ++ convert_path_to_key_name (renderPath r.1),
        (pyGet kvs "new_value").getD (.dict kvs),
        (pyGet kvs "old_value").getD (.dict kvs)⟩ : ChangeEntry)
    | v => (⟨pre ++ convert_path_to_key_name (renderPath r.1), v, v⟩ : ChangeEntry))

/-- The body of the `for item_id in all_ids:` loop. -/
def entriesForId (cloud_map iac_map : List (PyVal × PyVal)) (array_path : String)
    (item_id : PyVal) : List ChangeEntry :=
  let cloud_item := mapGet cloud_map item_id
  let iac_item := mapGet iac_map item_id
  if optValTruthy cloud_item && optValTruthy iac_item then
    let item_diff := ddiff [] (iac_item.getD .none) (cloud_item.getD .none)
    if item_diff.isEmpty then []
    else innerEntries array_path item_id item_diff
  else if optValTruthy cloud_item then
    [⟨array_path ++ "." ++ pyStrOf item_id, .str "ADDED", .none⟩]
  else if optValTruthy iac_item then
    [⟨array_path ++ "." ++ pyStrOf item_id, .none, .str "REMOVED"⟩]
  else []

/-- `DiffConverter.compare_arrays_with_id_matching`.  The guard tests only
that both arrays are non-empty and that their *first* elements are
mappings; `all_ids = set(cloud_map) | set(iac_map)` is a Python set whose
iteration order is unspecified — it is determinized here as the cloud ids
in insertion order followed by the new iac ids (no theorem depends on the
order). -/
def compare_arrays_with_id_matching (cloud_array iac_array : List PyVal)
    (array_path : String) : Except String (List ChangeEntry) :=
  match cloud_array, iac_array with
  | c0 :: _, i0 :: _ =>
    if isDict c0 && isDict i0 then do
      let cloud_map ← buildIdMap cloud_array
      let iac_map ← buildIdMap iac_array
      let cloudKeys := cloud_map.map Prod.fst
      let all_ids := cloudKeys ++
        (iac_map.map Prod.fst).filter (fun k => !cloudKeys.contains k)
      pure (all_ids.map (entriesForId cloud_map iac_map array_path)).flatten
    else pure [⟨array_path, .list cloud_array, .list iac_array⟩]
  | _, _ => pure [⟨array_path, .list cloud_array, .list iac_array⟩]

/-! ## Theorems for the claims -/

/-- Claim C6 (code bug): `normalize_value` is claimed never to raise, but
the superscript digit `'²'` satisfies `str.isdigit()` while `int('²')`
raises `ValueError` — and that `int` call sits outside the `try` block, so
the exception escapes.  The claim expects `.ok (.str "²")` (not all-ASCII
digits, float parse fails, so the value should pass through unchanged). -/
theorem normalize_value_raises_ValueError :
    normalize_value (.str "²") = .error "ValueError" := by rfl

/-- Claim C10 (confirmed): the Value Normalizer is idempotent.  Stated
through `Except.bind` so that the (pathological) raising inputs compose the
way the Python expression `normalize(normalize(v))` does: the first raise
propagates. -/
theorem normalize_value_idempotent (v : PyVal) :
    (normalize_value v).bind normalize_value = normalize_value v := by
  cases v with
  | str s =>
    by_cases h1 : pyStrIsdigit s = true
    · cases h2 : pyIntParse s with
      | none => simp [normalize_value, h1, h2, Except.bind]
      | some n => simp [normalize_value, h1, h2, Except.bind]
    · simp only [Bool.not_eq_true] at h1
      cases h2 : pyFloatParse s with
      | none => simp [normalize_value, h1, h2, Except.bind]
      | some q => simp [normalize_value, h1, h2, Except.bind]
  | none => rfl
  | bool b => rfl
  | int n => rfl
  | float q => rfl
  | list xs => rfl
  | dict kvs => rfl

/-- Claim C1 (code bug): `analyze` is claimed to produce one `AnalysisItem`
per cloud resource for *every* input, but when the matched pair differs by
an added non-iterable array element, `_process_iterable_item_added` runs
`for item in items` over that element (here picking up the `int` 5) and
raises `TypeError`, so `analyze` produces no report at all. -/
theorem analyze_raises_TypeError_on_int_array_item :
    analyze [[("name", .str "a"), ("x", .list [.int 5])]]
      [[("name", .str "a"), ("x", .list [])]] = .error "TypeError" := by rfl

/-- Claim C2 (code bug): `State = "Modified"` is claimed to imply a
non-empty `ChangeLog`, but when the only difference is an added empty
string in an array, `for item in items` iterates zero characters and the
change log comes out empty while the state is `"Modified"`. -/
theorem analyze_modified_with_empty_changelog :
    analyze [[("name", .str "a"), ("x", .list [.str ""])]]
      [[("name", .str "a"), ("x", .list [])]] =
    .ok ⟨[⟨[("name", .str "a"), ("x", .list [.str ""])],
          some [("name", .str "a"), ("x", .list [])], "Modified", []⟩],
        ⟨1, 0, 1, 0⟩⟩ := by rfl

/-- Claim C4 counterexample: the two records are equal except in the
identity field `id` nested one level down, yet the change log is not
empty — `exclude_paths` covers only the top-level `root['id']`,
`root['resource_id']`, `root['arn']`. -/
theorem convert_reports_nested_identity_field :
    convert_diff_to_changelog [("a", .dict [("id", .str "x")])]
        [("a", .dict [("id", .str "y")])] =
      .ok [⟨"a.id", .str "x", .str "y"⟩] ∧
    (.ok [⟨"a.id", .str "x", .str "y"⟩] : Except String (List ChangeEntry)) ≠ .ok [] := by
  exact ⟨by rfl, by decide⟩

/-- Claim C8 counterexample: the entry emitted for the added array element
`[None]` has `CloudValue = None` *and* `IacValue = None` (the code iterates
the added element, and the iterated element is `None`), and it is not a
type-change entry — so the claimed invariant fails. -/
theorem changelog_entry_both_null :
    convert_diff_to_changelog [("x", .list [.list [.none]])] [("x", .list [])] =
      .ok [⟨"x.0[+]", .none, .none⟩] := by rfl

/-- The guard of `compare_arrays_with_id_matching`, as the source writes
it: both arrays non-empty and both *first* elements mappings. -/
def arraysIdGuard (cloud_array iac_array : List PyVal) : Bool :=
  match cloud_array, iac_array with
  | c0 :: _, i0 :: _ => isDict c0 && isDict i0
  | _, _ => false

/-- Claim C9 counterexample: the cloud array contains the non-mapping
element `"zzz"`, so the claim demands a single whole-array entry; the code
looks only at the first elements, proceeds with identity matching (the
string `"zzz"` slips through because `"id" in "zzz"` is a substring test),
and emits the per-field entry `p.x.v` instead. -/
theorem compare_arrays_id_matching_despite_non_mapping :
    compare_arrays_with_id_matching
        [.dict [("id", .str "x"), ("v", .int 1)], .str "zzz"]
        [.dict [("id", .str "x"), ("v", .int 2)]] "p" =
      .ok [⟨"p.x.v", .int 1, .int 2⟩] ∧
    (.ok [⟨"p.x.v", .int 1, .int 2⟩] : Except String (List ChangeEntry)) ≠
      .ok [⟨"p", .list [.dict [("id", .str "x"), ("v", .int 1)], .str "zzz"],
        .list [.dict [("id", .str "x"), ("v", .int 2)]]⟩] := by
  exact ⟨by rfl, by decide⟩

/-- Claim C9 (corrected): whenever the source's guard fails — either array
empty, or a *first* element that is not a mapping — the function emits
exactly one whole-array entry and performs no identity matching. -/
theorem compare_arrays_whole_array_entry (cloud_array iac_array : List PyVal)
    (array_path : String) (h : arraysIdGuard cloud_array iac_array = false) :
    compare_arrays_with_id_matching cloud_array iac_array array_path =
      .ok [⟨array_path, .list cloud_array, .list iac_array⟩] := by
  cases cloud_array with
  | nil => rfl
  | cons c0 cs =>
    cases iac_array with
    | nil => rfl
    | cons i0 is' =>
      simp only [arraysIdGuard, Bool.and_eq_false_iff] at h
      simp only [compare_arrays_with_id_matching]
      rcases h with h | h <;> simp [h, pure, Except.pure]

/-- Witness for `compare_arrays_whole_array_entry`: a non-empty cloud array
whose first element is a string. -/
theorem compare_arrays_whole_array_entry_witness :
    compare_arrays_with_id_matching [.str "item1"] [.dict [("id", .str "x")]] "arr" =
      .ok [⟨"arr", .list [.str "item1"], .list [.dict [("id", .str "x")]]⟩] :=
  compare_arrays_whole_array_entry [.str "item1"] [.dict [("id", .str "x")]] "arr" (by rfl)

/-- Modelled from the claim's wording (spec §4.2): return `1.0` when some
identity field is *present on both sides* with equal values; otherwise add
each weight only when the corresponding field is *present and non-null on
both sides* and equal; clamp to `1.0`.  This definition exists to contrast
the claim with the code. -/
def claimedMatchConfidence (cloud iac : Resource) : ℚ :=
  if cloud_id_fields.any (fun f =>
      (pyGet cloud f).isSome && (pyGet iac f).isSome && pyGetV cloud f = pyGetV iac f)
  then 1
  else
    min ((if derivedType cloud ≠ .none ∧ derivedType iac ≠ .none ∧
            derivedType cloud = derivedType iac then (2 : ℚ)/5 else 0) +
         (if pyGetV cloud "name" ≠ .none ∧ pyGetV iac "name" ≠ .none ∧
            pyGetV cloud "name" = pyGetV iac "name" then (2 : ℚ)/5 else 0) +
         (if pyGetV cloud "region" ≠ .none ∧ pyGetV iac "region" ≠ .none ∧
            pyGetV cloud "region" = pyGetV iac "region" then (1 : ℚ)/5 else 0)) 1

/-- Claim C5 counterexample: on two empty resources no field is present at
all, so the claimed score is `0`; the code compares the absent fields as
`None == None` three times and returns `0.4 + 0.4 + 0.2 = 1.0`. -/
theorem confidence_one_for_empty_resources :
    get_match_confidence [] [] = 1 ∧ claimedMatchConfidence [] [] = 0 := by
  constructor
  · simp [get_match_confidence, idShortCircuit, cloud_id_fields, pyGetV, pyGet, pyTruthy]
    norm_num
  · simp [claimedMatchConfidence, cloud_id_fields, pyGetV, pyGet, derivedType, pyTruthy]

/-- Claim C5 (corrected): `get_match_confidence` returns `1.0` exactly when
some pair of identity fields — possibly of *different* names, and only when
both values are truthy — agree across the two resources; otherwise it is
the clamped sum of `0.4`/`0.4`/`0.2` for equality of the derived type,
name and region values, where two absent fields also count as equal; and
the result always lies in `[0, 1]`. -/
theorem get_match_confidence_spec (cloud iac : Resource) :
    get_match_confidence cloud iac =
      (if idShortCircuit cloud iac then 1
       else min ((if derivedType cloud = derivedType iac then (2 : ℚ)/5 else 0) +
                 (if pyGetV cloud "name" = pyGetV iac "name" then (2 : ℚ)/5 else 0) +
                 (if pyGetV cloud "region" = pyGetV iac "region" then (1 : ℚ)/5 else 0)) 1) ∧
    0 ≤ get_match_confidence cloud iac ∧ get_match_confidence cloud iac ≤ 1 := by
  refine ⟨?_, ?_, ?_⟩
  · rw [get_match_confidence]
    split_ifs <;> norm_num
  · rw [get_match_confidence]
    split_ifs <;> norm_num
  · rw [get_match_confidence]
    split_ifs with h <;> simp [min_le_right]

/-! Claim C3: the three-tier cascade.  The specification-side formulation
expresses each tier as a first-hit scan (`List.find?`) over the candidate
pool, and the cascade as `orElse`; the theorem below proves the translated
loops equal to it. -/

/-- Tier-2 test: derived type and name both equal (the body of
`_secondary_match`'s loop). -/
def secondaryPred (ct cn : PyVal) (r : Resource) : Bool :=
  derivedType r = ct && pyGetV r "name" = cn

/-- Tier-3 first-pass test: name and region both equal. -/
def nameRegionPred (cn cr : PyVal) (r : Resource) : Bool :=
  pyGetV r "name" = cn && pyGetV r "region" = cr

/-- Tier-3 fallback test: name equal. -/
def namePred (cn : PyVal) (r : Resource) : Bool := pyGetV r "name" = cn

/-- Tier 2 as a guarded first-hit scan. -/
def secondarySpec (cloud : Resource) (pool : List Resource) : Option Resource :=
  if pyTruthy (derivedType cloud) && pyTruthy (pyGetV cloud "name") then
    pool.find? (secondaryPred (derivedType cloud) (pyGetV cloud "name"))
  else Option.none

/-- Tier 3 as guarded first-hit scans: the region-aware pass first, then
the name-only fallback. -/
def tertiarySpec (cloud : Resource) (pool : List Resource) : Option Resource :=
  if pyTruthy (pyGetV cloud "name") then
    match (if pyTruthy (pyGetV cloud "region") then
        pool.find? (nameRegionPred (pyGetV cloud "name") (pyGetV cloud "region"))
      else Option.none) with
    | some r => some r
    | Option.none => pool.find? (namePred (pyGetV cloud "name"))
  else Option.none

theorem primaryScan_eq_find? (ids : List PyVal) (pool : List Resource) :
    primaryScan ids pool = pool.find? (primaryHit ids) := by
  induction pool with
  | nil => rfl
  | cons r rest ih => simp only [primaryScan, List.find?_cons, ih]; split <;> simp_all

theorem secondaryScan_eq_find? (ct cn : PyVal) (pool : List Resource) :
    secondaryScan ct cn pool = pool.find? (secondaryPred ct cn) := by
  induction pool with
  | nil => rfl
  | cons r rest ih =>
    simp only [secondaryScan, secondaryPred, List.find?_cons, ih]
    cases h : (decide (derivedType r = ct) && decide (pyGetV r "name" = cn)) <;> simp [h]

theorem nameRegionScan_eq_find? (cn cr : PyVal) (pool : List Resource) :
    nameRegionScan cn cr pool = pool.find? (nameRegionPred cn cr) := by
  induction pool with
  | nil => rfl
  | cons r rest ih =>
    simp only [nameRegionScan, nameRegionPred, List.find?_cons, ih]
    cases h : (decide (pyGetV r "name" = cn) && decide (pyGetV r "region" = cr)) <;> simp [h]

theorem nameScan_eq_find? (cn : PyVal) (pool : List Resource) :
    nameScan cn pool = pool.find? (namePred cn) := by
  induction pool with
  | nil => rfl
  | cons r rest ih => simp only [nameScan, namePred, List.find?_cons, ih]; split <;> simp_all

/-- A primary hit has at least the matched identity key, so it is a
non-empty dict. -/
theorem primaryHit_ne_nil {ids : List PyVal} {r : Resource}
    (h : primaryHit ids r = true) : r ≠ [] := by
  intro hr; subst hr; simp [primaryHit, pyGet, cloud_id_fields] at h

theorem secondaryPred_ne_nil {ct cn : PyVal} {r : Resource}
    (hcn : pyTruthy cn = true) (h : secondaryPred ct cn r = true) : r ≠ [] := by
  intro hr; subst hr
  simp only [secondaryPred, Bool.and_eq_true, decide_eq_true_eq] at h
  rw [← h.2] at hcn
  simp [pyGetV, pyGet, pyTruthy] at hcn

theorem nameRegionPred_ne_nil {cn cr : PyVal} {r : Resource}
    (hcn : pyTruthy cn = true) (h : nameRegionPred cn cr r = true) : r ≠ [] := by
  intro hr; subst hr
  simp only [nameRegionPred, Bool.and_eq_true, decide_eq_true_eq] at h
  rw [← h.1] at hcn
  simp [pyGetV, pyGet, pyTruthy] at hcn

theorem namePred_ne_nil {cn : PyVal} {r : Resource}
    (hcn : pyTruthy cn = true) (h : namePred cn r = true) : r ≠ [] := by
  intro hr; subst hr
  simp only [namePred, decide_eq_true_eq] at h
  rw [← h] at hcn
  simp [pyGetV, pyGet, pyTruthy] at hcn

theorem secondary_match_eq_spec (cloud : Resource) (pool : List Resource) :
    secondary_match cloud pool = secondarySpec cloud pool := by
  rw [secondary_match, secondarySpec]
  by_cases h1 : pyTruthy (derivedType cloud) = true <;>
    by_cases h2 : pyTruthy (pyGetV cloud "name") = true <;>
    simp [h1, h2, secondaryScan_eq_find?]

theorem tertiary_match_eq_spec (cloud : Resource) (pool : List Resource) :
    tertiary_match cloud pool = tertiarySpec cloud pool := by
  rw [tertiary_match, tertiarySpec]
  by_cases hcn : pyTruthy (pyGetV cloud "name") = true <;>
    by_cases hcr : pyTruthy (pyGetV cloud "region") = true <;>
    simp [hcn, hcr, nameRegionScan_eq_find?, nameScan_eq_find?]

theorem secondarySpec_ne_nil {cloud r : Resource} {pool : List Resource}
    (h : secondarySpec cloud pool = some r) : r ≠ [] := by
  rw [secondarySpec] at h
  split at h
  · next hg =>
    exact secondaryPred_ne_nil (Bool.and_elim_right hg) (List.find?_some h)
  · cases h

theorem tertiarySpec_ne_nil {cloud r : Resource} {pool : List Resource}
    (h : tertiarySpec cloud pool = some r) : r ≠ [] := by
  rw [tertiarySpec] at h
  split at h
  · next hcn =>
    split at h
    · next r' hr' =>
      cases h
      by_cases hcr : pyTruthy (pyGetV cloud "region") = true
      · rw [if_pos hcr] at hr'
        exact nameRegionPred_ne_nil hcn (List.find?_some hr')
      · rw [if_neg hcr] at hr'; cases hr'
    · exact namePred_ne_nil hcn (List.find?_some h)
  · cases h

/-- One cascade step: Python's `if tier_result:` agrees with `orElse`
whenever the tier can only produce non-empty dicts. -/
theorem cascadeStep {x y : Option Resource} (h : ∀ r, x = some r → r ≠ []) :
    (if optTruthy x then x else y) = x.orElse fun _ => y := by
  cases x with
  | none => simp [optTruthy, Option.orElse]
  | some r =>
    have : optTruthy (some r) = true := by
      simp [optTruthy, List.isEmpty_iff, h r rfl]
    simp [this, Option.orElse]

theorem cascadeEnd {x : Option Resource} (h : ∀ r, x = some r → r ≠ []) :
    (if optTruthy x then x else Option.none) = x := by
  cases x with
  | none => simp
  | some r =>
    have : optTruthy (some r) = true := by
      simp [optTruthy, List.isEmpty_iff, h r rfl]
    simp [this]

/-- Claim C3 (confirmed): the matcher applies the three tiers in fixed
precedence — identity, then type+name, then name(+region, with a name-only
fallback) — returning the result of the first tier that yields one, and
within each scan it returns the first candidate in input order satisfying
the tier's test (`List.find?`); in particular, whenever some candidate
shares a truthy identity value with the cloud resource, the returned match
is an identity match, regardless of (type, name) agreement with other
candidates. -/
theorem find_matching_cascade :
    (∀ cloud pool, find_matching_iac_resource cloud pool =
      ((pool.find? (primaryHit (cloudIds cloud))).orElse fun _ =>
        (secondarySpec cloud pool).orElse fun _ => tertiarySpec cloud pool)) ∧
    (∀ cloud pool r, r ∈ pool → primaryHit (cloudIds cloud) r = true →
      ∃ r', find_matching_iac_resource cloud pool = some r' ∧
        primaryHit (cloudIds cloud) r' = true) := by
  have main : ∀ cloud pool, find_matching_iac_resource cloud pool =
      ((pool.find? (primaryHit (cloudIds cloud))).orElse fun _ =>
        (secondarySpec cloud pool).orElse fun _ => tertiarySpec cloud pool) := by
    intro cloud pool
    rw [find_matching_iac_resource, primary_match, primaryScan_eq_find?,
      secondary_match_eq_spec, tertiary_match_eq_spec,
      cascadeEnd (fun r hr => tertiarySpec_ne_nil hr),
      cascadeStep (fun r hr => secondarySpec_ne_nil hr),
      cascadeStep (fun r hr => primaryHit_ne_nil (List.find?_some hr))]
  refine ⟨main, ?_⟩
  intro cloud pool r hmem hhit
  have hsome : (pool.find? (primaryHit (cloudIds cloud))).isSome := by
    rw [List.find?_isSome]
    exact ⟨r, hmem, hhit⟩
  obtain ⟨r', hr'⟩ := Option.isSome_iff_exists.mp hsome
  refine ⟨r', ?_, List.find?_some hr'⟩
  rw [main, hr']
  rfl

/-- Witness for `find_matching_cascade`: the cloud resource shares `id`
value `"x"` with the second candidate (via its `arn`) and the `(type,
name)` pair with the first candidate; the identity match is returned. -/
theorem find_matching_cascade_witness :
    ∃ r', find_matching_iac_resource
        [("id", .str "x"), ("type", .str "t"), ("name", .str "n")]
        [[("type", .str "t"), ("name", .str "n")], [("arn", .str "x")]] = some r' ∧
      primaryHit (cloudIds [("id", .str "x"), ("type", .str "t"), ("name", .str "n")])
        r' = true :=
  find_matching_cascade.2
    [("id", .str "x"), ("type", .str "t"), ("name", .str "n")]
    [[("type", .str "t"), ("name", .str "n")], [("arn", .str "x")]]
    [("arn", .str "x")] (by simp) (by rfl)

/-! Claim C4: machinery — well-formedness decomposition and reflexivity of
the diff on well-formed values. -/

theorem pySize_pos (v : PyVal) : 1 ≤ pySize v := by
  cases v <;> simp only [pySize] <;> omega

theorem pySizeList_bound {x : PyVal} {xs : List PyVal} (h : x ∈ xs) :
    pySize x + 1 ≤ pySizeList xs := by
  induction xs with
  | nil => cases h
  | cons y ys ih =>
    rcases List.mem_cons.mp h with rfl | h'
    · simp only [pySizeList]; omega
    · have := ih h'
      simp only [pySizeList]
      omega

theorem pySizeKvs_bound {kv : String × PyVal} {kvs : List (String × PyVal)}
    (h : kv ∈ kvs) : pySize kv.2 + 1 ≤ pySizeKvs kvs := by
  induction kvs with
  | nil => cases h
  | cons y ys ih =>
    rcases List.mem_cons.mp h with rfl | h'
    · cases kv; simp only [pySizeKvs]; omega
    · have := ih h'
      cases y
      simp only [pySizeKvs]
      omega

theorem list_all_congr {α : Type} {l : List α} {p q : α → Bool}
    (h : ∀ x ∈ l, p x = q x) : l.all p = l.all q := by
  induction l with
  | nil => rfl
  | cons x xs ih => simp_all [List.all_cons]

/-- Fuel irrelevance for `WFbF`: any fuel at least the size computes the
same answer. -/
theorem WFbF_fuel : ∀ n v f, pySize v ≤ n → pySize v ≤ f →
    WFbF f v = WFbF (pySize v) v := by
  intro n
  induction n with
  | zero => intro v f h _; have := pySize_pos v; omega
  | succ n ih =>
    intro v f hn hf
    have h1 := pySize_pos v
    cases f with
    | zero => omega
    | succ f =>
      cases v with
      | list xs =>
        simp only [pySize, WFbF] at hn hf ⊢
        have e1 : (xs.all fun x => WFbF f x) = xs.all fun x => WFbF (pySize x) x :=
          list_all_congr fun x hx => by
            have hb := pySizeList_bound hx
            exact ih x f (by omega) (by omega)
        have e2 : (xs.all fun x => WFbF (pySizeList xs) x) =
            xs.all fun x => WFbF (pySize x) x :=
          list_all_congr fun x hx => by
            have hb := pySizeList_bound hx
            exact ih x (pySizeList xs) (by omega) (by omega)
        rw [e1, e2]
      | dict kvs =>
        simp only [pySize, WFbF] at hn hf ⊢
        have h2 : ∀ g, pySizeKvs kvs ≤ g →
            (kvs.all fun kv => WFbF g kv.2) = kvs.all fun kv => WFbF (pySize kv.2) kv.2 :=
          fun g hg => list_all_congr fun kv hkv => by
            have hb := pySizeKvs_bound hkv
            exact ih kv.2 g (by omega) (by omega)
        rw [h2 f (by omega), h2 (pySizeKvs kvs) le_rfl]
      | none => rfl
      | bool b => rfl
      | int m => rfl
      | float q => rfl
      | str s => rfl

theorem WFb_list_mem {xs : List PyVal} {x : PyVal}
    (h : WFb (.list xs) = true) (hx : x ∈ xs) : WFb x = true := by
  rw [WFb] at h
  simp only [pySize, WFbF, List.all_eq_true] at h
  have hb := pySizeList_bound hx
  have := h x hx
  rwa [WFbF_fuel (pySizeList xs) x (pySizeList xs) (by omega) (by omega)] at this

theorem WFb_dict_mem {kvs : List (String × PyVal)} {kv : String × PyVal}
    (h : WFb (.dict kvs) = true) (hkv : kv ∈ kvs) : WFb kv.2 = true := by
  rw [WFb] at h
  simp only [pySize, WFbF, Bool.and_eq_true, List.all_eq_true] at h
  have hb := pySizeKvs_bound hkv
  have := h.2 kv hkv
  rwa [WFbF_fuel (pySizeKvs kvs) kv.2 (pySizeKvs kvs) (by omega) (by omega)] at this

theorem WFb_dict_nodup {kvs : List (String × PyVal)}
    (h : WFb (.dict kvs) = true) : nodupKeys (kvs.map Prod.fst) = true := by
  rw [WFb] at h
  simp only [pySize, WFbF, Bool.and_eq_true] at h
  exact h.1

/-- Lookup of a present key succeeds. -/
theorem pyGet_isSome_of_mem {kvs : List (String × PyVal)} {k : String} {v : PyVal}
    (h : (k, v) ∈ kvs) : (pyGet kvs k).isSome := by
  induction kvs with
  | nil => cases h
  | cons kv rest ih =>
    rcases List.mem_cons.mp h with rfl | h'
    · simp [pyGet]
    · by_cases he : kv.1 = k
      · cases kv; simp_all [pyGet]
      · cases kv; simp_all [pyGet]

/-- With duplicate-free keys, lookup returns the unique binding. -/
theorem pyGet_of_mem_nodup {kvs : List (String × PyVal)} {k : String} {v : PyVal}
    (hnd : nodupKeys (kvs.map Prod.fst) = true) (h : (k, v) ∈ kvs) :
    pyGet kvs k = some v := by
  induction kvs with
  | nil => cases h
  | cons kv rest ih =>
    simp only [List.map_cons, nodupKeys, Bool.and_eq_true, Bool.not_eq_eq_eq_not,
      Bool.not_true] at hnd
    rcases List.mem_cons.mp h with rfl | h'
    · simp [pyGet]
    · have hk : k ∈ rest.map Prod.fst := List.mem_map.mpr ⟨(k, v), h', rfl⟩
      have hne : kv.1 ≠ k := by
        intro he
        rw [he] at hnd
        have h2 : (rest.map Prod.fst).elem k = true := List.elem_eq_true_of_mem hk
        rw [show ((rest.map Prod.fst).contains k) = ((rest.map Prod.fst).elem k) from rfl,
          h2] at hnd
        exact absurd hnd.1 (by simp)
      cases kv
      simp_all [pyGet]

theorem pyBeq_refl (a : PyVal) : pyBeq a a = true := (pyBeq_iff_eq a a).mpr rfl

/-! Reflexivity of deep equality on well-formed values, by fuel
induction. -/

mutual

theorem deepEqF_refl : ∀ f v, WFb v = true → 2 * pySize v ≤ f → deepEqF f v v = true
  | 0, v, _, hf => by have := pySize_pos v; omega
  | f + 1, v, hw, hf => by
    cases v with
    | list xs =>
      have hb : pySizeList xs + pySizeList xs < f := by
        simp only [pySize] at hf; omega
      simp only [deepEqF]
      rw [subsetEqF_mem f xs xs (fun x hx => ⟨hx, WFb_list_mem hw hx⟩) hb]
      rfl
    | dict kvs =>
      have hb : 2 * pySizeKvs kvs < f := by
        simp only [pySize] at hf; omega
      have hh : ∀ kv ∈ kvs, pyGet kvs kv.1 = some kv.2 ∧ WFb kv.2 = true := by
        intro kv hkv
        refine ⟨?_, WFb_dict_mem hw hkv⟩
        have : (kv.1, kv.2) ∈ kvs := by cases kv; exact hkv
        exact pyGet_of_mem_nodup (WFb_dict_nodup hw) this
      simp only [deepEqF]
      rw [dictSubEqF_lookup f kvs kvs hh hb]
      rfl
    | none => exact pyBeq_refl _
    | bool b => exact pyBeq_refl _
    | int n => exact pyBeq_refl _
    | float q => exact pyBeq_refl _
    | str s => exact pyBeq_refl _

theorem memEqF_mem : ∀ f x ys, x ∈ ys → WFb x = true →
    pySize x + pySizeList ys < f → memEqF f x ys = true
  | 0, x, ys, _, _, hf => by omega
  | f + 1, x, [], hmem, _, _ => by cases hmem
  | f + 1, x, y :: ys, hmem, hw, hf => by
    rcases List.mem_cons.mp hmem with rfl | h'
    · have hb : 2 * pySize x ≤ f := by
        simp only [pySizeList] at hf; omega
      simp only [memEqF, deepEqF_refl f x hw hb, Bool.true_or]
    · have hb : pySize x + pySizeList ys < f := by
        have := pySize_pos y
        simp only [pySizeList] at hf; omega
      simp only [memEqF, memEqF_mem f x ys h' hw hb, Bool.or_true]

theorem subsetEqF_mem : ∀ f xs ys, (∀ x ∈ xs, x ∈ ys ∧ WFb x = true) →
    pySizeList xs + pySizeList ys < f → subsetEqF f xs ys = true
  | 0, _, _, _, hf => by omega
  | f + 1, [], ys, _, _ => rfl
  | f + 1, x :: xs, ys, h, hf => by
    have hx := h x (List.mem_cons_self x xs)
    have hb1 : pySize x + pySizeList ys < f := by
      simp only [pySizeList] at hf; omega
    have hb2 : pySizeList xs + pySizeList ys < f := by
      have := pySize_pos x
      simp only [pySizeList] at hf; omega
    simp only [subsetEqF, memEqF_mem f x ys hx.1 hx.2 hb1,
      subsetEqF_mem f xs ys (fun z hz => h z (List.mem_cons_of_mem x hz)) hb2,
      Bool.and_self]

theorem dictSubEqF_lookup : ∀ f rest kvs,
    (∀ kv ∈ rest, pyGet kvs kv.1 = some kv.2 ∧ WFb kv.2 = true) →
    2 * pySizeKvs rest < f → dictSubEqF f rest kvs = true
  | 0, _, _, _, hf => by omega
  | f + 1, [], kvs, _, _ => rfl
  | f + 1, (k, v) :: rest, kvs, h, hf => by
    have hkv := h (k, v) (List.mem_cons_self (k, v) rest)
    have hb1 : 2 * pySize v ≤ f := by
      simp only [pySizeKvs] at hf; omega
    have hb2 : 2 * pySizeKvs rest < f := by
      have := pySize_pos v
      simp only [pySizeKvs] at hf; omega
    simp only [dictSubEqF, hkv.1, deepEqF_refl f v hkv.2 hb1,
      dictSubEqF_lookup f rest kvs (fun z hz => h z (List.mem_cons_of_mem (k, v) hz)) hb2,
      Bool.and_self]

end

/-- `deepEq` is reflexive on well-formed values. -/
theorem deepEq_refl {v : PyVal} (hw : WFb v = true) : deepEq v v = true :=
  deepEqF_refl (pySize v + pySize v) v hw (by omega)

theorem dictTop_self (p : Path) (o : List (String × PyVal)) :
    dictTop p o o = DDiff.empty := by
  have h : ∀ kv ∈ o, ¬((pyGet o kv.1).isNone = true) := by
    intro kv hkv
    have : (kv.1, kv.2) ∈ o := by cases kv; exact hkv
    have hs := pyGet_isSome_of_mem this
    cases hpy : pyGet o kv.1 with
    | none => rw [hpy] at hs; cases hs
    | some w => simp [hpy]
  rw [dictTop, List.filter_eq_nil_iff.mpr h]
  rfl

theorem listTop_self (p : Path) (o : List PyVal) (hw : WFb (.list o) = true) :
    listTop p o o = DDiff.empty := by
  have h : ∀ ix ∈ o.enum, ¬((!memEq ix.2 o) = true) := by
    intro ix hix
    have hmem : ix.2 ∈ o := by
      cases ix
      exact List.getElem?_mem (List.mem_enum_iff_getElem?.mp hix)
    have hde : deepEq ix.2 ix.2 = true := deepEq_refl (WFb_list_mem hw hmem)
    have hmemEq : memEq ix.2 o = true := by
      rw [memEq, List.any_eq_true]
      exact ⟨ix.2, hmem, hde⟩
    simp [hmemEq]
  rw [listTop, List.filter_eq_nil_iff.mpr h]
  rfl

mutual

theorem ddiffF_refl : ∀ f p v, WFb v = true → pySize v ≤ f → ddiffF f p v v = DDiff.empty
  | 0, _, v, _, hf => by have := pySize_pos v; omega
  | f + 1, p, v, hw, hf => by
    cases v with
    | dict kvs =>
      have hh : ∀ kv ∈ kvs, pyGet kvs kv.1 = some kv.2 ∧ WFb kv.2 = true := by
        intro kv hkv
        refine ⟨?_, WFb_dict_mem hw hkv⟩
        have : (kv.1, kv.2) ∈ kvs := by cases kv; exact hkv
        exact pyGet_of_mem_nodup (WFb_dict_nodup hw) this
      have hb : pySizeKvs kvs ≤ f := by simp only [pySize] at hf; omega
      simp only [ddiffF, dictTop_self, ddiffCommonF_lookup f p kvs kvs hh hb]
      rfl
    | list xs => simp only [ddiffF, listTop_self p xs hw]
    | none => rfl
    | bool b => simp [ddiffF]
    | int n => simp [ddiffF]
    | float q => simp [ddiffF]
    | str s => simp [ddiffF]

theorem ddiffCommonF_lookup : ∀ f p rest kvs,
    (∀ kv ∈ rest, pyGet kvs kv.1 = some kv.2 ∧ WFb kv.2 = true) →
    pySizeKvs rest ≤ f → ddiffCommonF f p rest kvs = DDiff.empty
  | 0, _, rest, kvs, _, hf => by
    cases rest with
    | nil => rfl
    | cons kv r =>
      exfalso
      obtain ⟨k, v⟩ := kv
      have := pySize_pos v
      simp only [pySizeKvs] at hf
      omega
  | f + 1, p, [], kvs, _, _ => rfl
  | f + 1, p, (k, v) :: rest, kvs, h, hf => by
    have hkv := h (k, v) (List.mem_cons_self (k, v) rest)
    have hb1 : pySize v ≤ f := by simp only [pySizeKvs] at hf; omega
    have hb2 : pySizeKvs rest ≤ f := by
      have := pySize_pos v
      simp only [pySizeKvs] at hf; omega
    simp only [ddiffCommonF, hkv.1, ddiffF_refl f (p ++ [Seg.key k]) v hkv.2 hb1,
      ddiffCommonF_lookup f p rest kvs (fun z hz => h z (List.mem_cons_of_mem (k, v) hz)) hb2]
    rfl

end

/-- The deepdiff of a well-formed value against itself is empty. -/
theorem ddiff_self (p : Path) {v : PyVal} (hw : WFb v = true) :
    ddiff p v v = DDiff.empty :=
  ddiffF_refl (pySize v) p v hw le_rfl

theorem nodupKeys_iff_nodup {ks : List String} :
    nodupKeys ks = true ↔ ks.Nodup := by
  induction ks with
  | nil => simp [nodupKeys]
  | cons k rest ih =>
    simp only [nodupKeys, Bool.and_eq_true, Bool.not_eq_eq_eq_not, Bool.not_true,
      List.nodup_cons, ih]
    constructor
    · rintro ⟨h1, h2⟩
      refine ⟨fun hm => ?_, h2⟩
      rw [show (rest.contains k) = rest.elem k from rfl,
        List.elem_eq_true_of_mem hm] at h1
      cases h1
    · rintro ⟨h1, h2⟩
      refine ⟨?_, h2⟩
      cases hc : rest.contains k with
      | false => rfl
      | true =>
        exact absurd (List.mem_of_elem_eq_true hc) h1

/-- `dropIds` preserves well-formedness. -/
theorem WFb_dropIds {r : Resource} (h : WFb (.dict r) = true) :
    WFb (.dict (dropIds r)) = true := by
  rw [WFb]
  simp only [pySize, WFbF, Bool.and_eq_true, List.all_eq_true]
  constructor
  · have hsub : ((dropIds r).map Prod.fst).Sublist (r.map Prod.fst) :=
      (List.filter_sublist r).map Prod.fst
    exact nodupKeys_iff_nodup.mpr ((nodupKeys_iff_nodup.mp (WFb_dict_nodup h)).sublist hsub)
  · intro kv hkv
    have hmem : kv ∈ r := List.mem_of_mem_filter hkv
    have hw := WFb_dict_mem h hmem
    have hb := pySizeKvs_bound hkv
    rw [WFbF_fuel (pySizeKvs (dropIds r)) kv.2 (pySizeKvs (dropIds r)) (by omega) (by omega)]
    exact hw

/-- Claim C4 (corrected): the identity fields are excluded from the diff
only at the *top level*: two well-formed records that agree once their
top-level `id`/`resource_id`/`arn` keys are dropped produce an empty
change log. -/
theorem convert_ignores_top_level_identity_fields (c i : Resource)
    (hc : WFb (.dict c) = true) (hi : WFb (.dict i) = true)
    (h : dropIds c = dropIds i) :
    convert_diff_to_changelog c i = .ok [] := by
  have hd : ddiff [] (.dict (dropIds i)) (.dict (dropIds c)) = DDiff.empty := by
    rw [h]
    exact ddiff_self [] (WFb_dropIds hi)
  rw [convert_diff_to_changelog, hd]
  rfl

/-- Witness for `convert_ignores_top_level_identity_fields`: two records
differing only in their top-level `id`. -/
theorem convert_ignores_top_level_identity_fields_witness :
    convert_diff_to_changelog [("id", .str "x"), ("a", .int 1)]
      [("id", .str "y"), ("a", .int 1)] = .ok [] :=
  convert_ignores_top_level_identity_fields
    [("id", .str "x"), ("a", .int 1)] [("id", .str "y"), ("a", .int 1)]
    (by rfl) (by rfl) (by rfl)

/-! Claim C8: machinery — the values-changed records of a diff never carry
`None` on either side (a `None` against anything else is a *type* change),
and the converter's first four categories always produce an entry with a
non-null side. -/

theorem pyTypeName_noneType {v : PyVal} (h : pyTypeName v = "NoneType") :
    v = .none := by
  cases v
  case none => rfl
  all_goals exact absurd h (by simp [pyTypeName])

theorem DDiff.append_valuesChanged (a b : DDiff) :
    (a ++ b).valuesChanged = a.valuesChanged ++ b.valuesChanged := rfl

/-- Values-changed records from the scalar/mismatch branch of `ddiffF`
have non-null sides. -/
theorem vc_scalar_branch {p : Path} {a b : PyVal} {r : Path × PyVal × PyVal}
    (hmem : r ∈ (if pyTypeName a = pyTypeName b then
        (if a = b then DDiff.empty
         else (⟨[(p, a, b)], [], [], [], [], []⟩ : DDiff))
      else (⟨[], [], [], [(p, a, b)], [], []⟩ : DDiff)).valuesChanged) :
    r.2.1 ≠ PyVal.none ∧ r.2.2 ≠ PyVal.none := by
  by_cases htn : pyTypeName a = pyTypeName b
  · rw [if_pos htn] at hmem
    by_cases hab : a = b
    · rw [if_pos hab] at hmem
      simp [DDiff.empty] at hmem
    · rw [if_neg hab] at hmem
      simp only [List.mem_singleton] at hmem
      subst hmem
      constructor
      · intro ha
        simp only at ha
        rw [ha] at htn
        exact hab (by rw [ha, pyTypeName_noneType htn.symm])
      · intro hb
        simp only at hb
        rw [hb] at htn
        exact hab (by rw [hb, pyTypeName_noneType htn])
  · rw [if_neg htn] at hmem
    simp at hmem

mutual

theorem ddiffF_vc_nonnull : ∀ f p old new r,
    r ∈ (ddiffF f p old new).valuesChanged →
    r.2.1 ≠ PyVal.none ∧ r.2.2 ≠ PyVal.none
  | 0, _, _, _, r => by intro hmem; simp [ddiffF, DDiff.empty] at hmem
  | f + 1, p, old, new, r => by
    intro hmem
    cases old <;> cases new
    case none.none => simp [ddiffF, DDiff.empty] at hmem
    all_goals
      simp only [ddiffF] at hmem
      first
      | exact vc_scalar_branch hmem
      | (rw [DDiff.append_valuesChanged] at hmem
         rcases List.mem_append.mp hmem with h | h
         · simp [dictTop] at h
         · exact ddiffCommonF_vc_nonnull f _ _ _ r h)
      | exact absurd hmem (by simp [listTop])

theorem ddiffCommonF_vc_nonnull : ∀ f p rest n r,
    r ∈ (ddiffCommonF f p rest n).valuesChanged →
    r.2.1 ≠ PyVal.none ∧ r.2.2 ≠ PyVal.none
  | 0, _, _, _, r => by intro hmem; simp [ddiffCommonF, DDiff.empty] at hmem
  | f + 1, p, [], n, r => by intro hmem; simp [ddiffCommonF, DDiff.empty] at hmem
  | f + 1, p, (k, vo) :: rest, n, r => by
    intro hmem
    rw [ddiffCommonF, DDiff.append_valuesChanged] at hmem
    rcases List.mem_append.mp hmem with h | h
    · cases hg : pyGet n k with
      | none => rw [hg] at h; simp [DDiff.empty] at h
      | some vn =>
        rw [hg] at h
        exact ddiffF_vc_nonnull f _ _ _ r h
    · exact ddiffCommonF_vc_nonnull f _ _ _ r h

end

/-- `normalize_value` never turns a non-null value into `None`. -/
theorem normalize_value_nonnull {v w : PyVal} (h : normalize_value v = .ok w)
    (hv : v ≠ PyVal.none) : w ≠ PyVal.none := by
  cases v with
  | str s =>
    rw [normalize_value] at h
    by_cases h1 : pyStrIsdigit s = true
    · rw [if_pos h1] at h
      cases h2 : pyIntParse s with
      | none => rw [h2] at h; cases h
      | some n => rw [h2] at h; cases h; simp
    · rw [if_neg h1] at h
      cases h2 : pyFloatParse s with
      | none => rw [h2] at h; cases h; simp
      | some q => rw [h2] at h; cases h; simp
  | none => exact absurd rfl hv
  | bool b => cases h; exact hv
  | int n => cases h; exact hv
  | float q => cases h; exact hv
  | list xs => cases h; exact hv
  | dict kvs => cases h; exact hv

/-- Inversion for `Except.bind`. -/
theorem except_bind_ok {α β : Type} {x : Except String α} {f : α → Except String β}
    {r : β} (h : x.bind f = .ok r) : ∃ a, x = .ok a ∧ f a = .ok r := by
  cases x with
  | error e => cases h
  | ok a => exact ⟨a, rfl, h⟩

/-- Inversion for `List.mapM` over `Except`. -/
theorem mapM_ok_mem {α β : Type} {f : α → Except String β} :
    ∀ {l : List α} {es : List β}, l.mapM f = .ok es →
      ∀ e ∈ es, ∃ x ∈ l, f x = .ok e := by
  intro l
  induction l with
  | nil =>
    intro es h e he
    rw [List.mapM_nil] at h
    cases h
    cases he
  | cons x xs ih =>
    intro es h e he
    rw [List.mapM_cons] at h
    simp only [bind, pure] at h
    obtain ⟨b, hb, h2⟩ := except_bind_ok h
    obtain ⟨bs, hbs, h3⟩ := except_bind_ok h2
    cases h3
    rcases List.mem_cons.mp he with rfl | he'
    · exact ⟨x, List.mem_cons_self x xs, hb⟩
    · obtain ⟨y, hy, hfy⟩ := ih hbs e he'
      exact ⟨y, List.mem_cons_of_mem x hy, hfy⟩

/-- Suffix test on the character lists of two strings. -/
def strEndsWith (s t : String) : Bool := t.data.isSuffixOf s.data

theorem strEndsWith_append (s t : String) : strEndsWith (s ++ t) t = true := by
  rw [strEndsWith, String.data_append]
  exact List.isSuffixOf_iff_suffix.mpr (List.suffix_append s.data t.data)

theorem process_values_changed_nonnull {l : List (Path × PyVal × PyVal)}
    {es : List ChangeEntry} (h : process_values_changed l = .ok es)
    (hl : ∀ r ∈ l, r.2.1 ≠ PyVal.none ∧ r.2.2 ≠ PyVal.none) :
    ∀ e ∈ es, e.CloudValue ≠ PyVal.none ∧ e.IacValue ≠ PyVal.none := by
  intro e he
  obtain ⟨r, hr, hfr⟩ := mapM_ok_mem h e he
  simp only [bind, pure] at hfr
  obtain ⟨cv, hcv, h2⟩ := except_bind_ok hfr
  obtain ⟨iv, hiv, h3⟩ := except_bind_ok h2
  cases h3
  exact ⟨normalize_value_nonnull hcv (hl r hr).2, normalize_value_nonnull hiv (hl r hr).1⟩

theorem process_dictionary_item_added_shape {l : List Path} {e : ChangeEntry}
    (he : e ∈ process_dictionary_item_added l) : e.CloudValue = .str "ADDED" := by
  obtain ⟨p, _, rfl⟩ := List.mem_map.mp he
  rfl

theorem process_dictionary_item_removed_shape {l : List Path} {e : ChangeEntry}
    (he : e ∈ process_dictionary_item_removed l) : e.IacValue = .str "REMOVED" := by
  obtain ⟨p, _, rfl⟩ := List.mem_map.mp he
  rfl

theorem process_type_changes_shape {l : List (Path × PyVal × PyVal)} {e : ChangeEntry}
    (he : e ∈ process_type_changes l) :
    (∃ s, e.CloudValue = .str s) ∧ ∃ s, e.IacValue = .str s := by
  obtain ⟨r, _, rfl⟩ := List.mem_map.mp he
  exact ⟨⟨_, rfl⟩, ⟨_, rfl⟩⟩

theorem process_iterable_item_added_shape {l : List (Path × PyVal)}
    {es : List ChangeEntry} (h : process_iterable_item_added l = .ok es) :
    ∀ e ∈ es, strEndsWith e.KeyName "[+]" = true ∧ e.IacValue = PyVal.none := by
  intro e he
  rw [process_iterable_item_added] at h
  try simp only [bind, pure] at h
  obtain ⟨chunks, hchunks, h2⟩ := except_bind_ok h
  cases h2
  obtain ⟨chunk, hchunk, hec⟩ := List.mem_flatten.mp he
  obtain ⟨r, _, hfr⟩ := mapM_ok_mem hchunks chunk hchunk
  try simp only [bind, pure] at hfr
  obtain ⟨items, _, h3⟩ := except_bind_ok hfr
  cases h3
  obtain ⟨item, _, rfl⟩ := List.mem_map.mp hec
  exact ⟨strEndsWith_append _ _, rfl⟩

theorem process_iterable_item_removed_shape {l : List (Path × PyVal)}
    {es : List ChangeEntry} (h : process_iterable_item_removed l = .ok es) :
    ∀ e ∈ es, strEndsWith e.KeyName "[-]" = true ∧ e.CloudValue = PyVal.none := by
  intro e he
  rw [process_iterable_item_removed] at h
  try simp only [bind, pure] at h
  obtain ⟨chunks, hchunks, h2⟩ := except_bind_ok h
  cases h2
  obtain ⟨chunk, hchunk, hec⟩ := List.mem_flatten.mp he
  obtain ⟨r, _, hfr⟩ := mapM_ok_mem hchunks chunk hchunk
  try simp only [bind, pure] at hfr
  obtain ⟨items, _, h3⟩ := except_bind_ok hfr
  cases h3
  obtain ⟨item, _, rfl⟩ := List.mem_map.mp hec
  exact ⟨strEndsWith_append _ _, rfl⟩

/-- Claim C8 (corrected): every change-log entry from the values-changed,
dictionary-added/removed and type-changes categories has at least one
non-null side (type-change entries carry formatted strings on both sides,
never null); iterable-item entries — recognizable by their `[+]`/`[-]`
key suffix — carry null on the opposite side, and the value they do carry
is an *iterated element* of the added/removed item, which can itself be
null. -/
theorem changelog_entries_nonnull_spec :
    ∀ cloud iac log, convert_diff_to_changelog cloud iac = .ok log →
      ∀ e ∈ log,
        (strEndsWith e.KeyName "[+]" = true ∧ e.IacValue = PyVal.none) ∨
        (strEndsWith e.KeyName "[-]" = true ∧ e.CloudValue = PyVal.none) ∨
        (e.CloudValue ≠ PyVal.none ∨ e.IacValue ≠ PyVal.none) := by
  intro cloud iac log h e he
  rw [convert_diff_to_changelog] at h
  split at h
  · cases h
    cases he
  · simp only [bind, pure] at h
    obtain ⟨a, ha, h2⟩ := except_bind_ok h
    obtain ⟨ei, hei, h3⟩ := except_bind_ok h2
    obtain ⟨fi, hfi, h4⟩ := except_bind_ok h3
    cases h4
    have hvc : ∀ r ∈ (ddiff [] (PyVal.dict (dropIds iac))
        (PyVal.dict (dropIds cloud))).valuesChanged,
        r.2.1 ≠ PyVal.none ∧ r.2.2 ≠ PyVal.none := by
      intro r hr
      exact ddiffF_vc_nonnull _ _ _ _ r hr
    rcases List.mem_append.mp he with he1 | hef
    rcases List.mem_append.mp he1 with he2 | hee
    rcases List.mem_append.mp he2 with he3 | hed
    rcases List.mem_append.mp he3 with he4 | hec
    rcases List.mem_append.mp he4 with hea | heb
    · exact Or.inr (Or.inr (Or.inl
        (process_values_changed_nonnull ha hvc e hea).1))
    · exact Or.inr (Or.inr (Or.inl (by
        rw [process_dictionary_item_added_shape heb]
        simp)))
    · exact Or.inr (Or.inr (Or.inr (by
        rw [process_dictionary_item_removed_shape hec]
        simp)))
    · obtain ⟨⟨s, hs⟩, _⟩ := process_type_changes_shape hed
      exact Or.inr (Or.inr (Or.inl (by rw [hs]; simp)))
    · exact Or.inl (process_iterable_item_added_shape hei e hee)
    · exact Or.inr (Or.inl (process_iterable_item_removed_shape hfi e hef))

/-- Witness for `changelog_entries_nonnull_spec`, at the input of the C8
counterexample: the lone entry is an iterable-item addition, so it falls
under the first disjunct. -/
theorem changelog_entries_nonnull_spec_witness :
    (strEndsWith (ChangeEntry.mk "x.0[+]" PyVal.none PyVal.none).KeyName "[+]" = true ∧
      (ChangeEntry.mk "x.0[+]" PyVal.none PyVal.none).IacValue = PyVal.none) ∨
    (strEndsWith (ChangeEntry.mk "x.0[+]" PyVal.none PyVal.none).KeyName "[-]" = true ∧
      (ChangeEntry.mk "x.0[+]" PyVal.none PyVal.none).CloudValue = PyVal.none) ∨
    ((ChangeEntry.mk "x.0[+]" PyVal.none PyVal.none).CloudValue ≠ PyVal.none ∨
      (ChangeEntry.mk "x.0[+]" PyVal.none PyVal.none).IacValue ≠ PyVal.none) :=
  changelog_entries_nonnull_spec [("x", .list [.list [.none]])] [("x", .list [])]
    [⟨"x.0[+]", .none, .none⟩] (by rfl) ⟨"x.0[+]", .none, .none⟩ (by simp)

/-! Claim C7: machinery.  `midV`/`midW` describe the characters that follow
the head key after the `root['` prefix and trailing `']` strips (`V` when
the previous segment was a mapping key, `W` when it was an index); `p3V`/
`p3W` the same after the `']['`→`.` replacement; `p4V`/`p4W` after the
`][`→`.` replacement. -/

mutual

def midV : Path → List Char
  | [] => []
  | .key k :: r => '\'' :: ']' :: '[' :: '\'' :: (k.toList ++ midV r)
  | .idx n :: r => '\'' :: ']' :: '[' :: (natDigits n ++ midW r)

def midW : Path → List Char
  | [] => [']']
  | .key k :: r => ']' :: '[' :: '\'' :: (k.toList ++ midV r)
  | .idx n :: r => ']' :: '[' :: (natDigits n ++ midW r)

end

mutual

def p3V : Path → List Char
  | [] => []
  | .key k :: r => '.' :: (k.toList ++ p3V r)
  | .idx n :: r => '\'' :: ']' :: '[' :: (natDigits n ++ p3W r)

def p3W : Path → List Char
  | [] => [']']
  | .key k :: r => ']' :: '[' :: '\'' :: (k.toList ++ p3V r)
  | .idx n :: r => ']' :: '[' :: (natDigits n ++ p3W r)

end

mutual

def p4V : Path → List Char
  | [] => []
  | .key k :: r => '.' :: (k.toList ++ p4V r)
  | .idx n :: r => '\'' :: '.' :: (natDigits n ++ p4W r)

def p4W : Path → List Char
  | [] => [']']
  | .key k :: r => '.' :: '\'' :: (k.toList ++ p4V r)
  | .idx n :: r => '.' :: (natDigits n ++ p4W r)

end

/-- Characters that survive the conversion's cleanup passes. -/
def cleanChar (c : Char) : Bool := c ≠ '\'' && c ≠ '[' && c ≠ ']'

/-- A usable mapping key for the claim: non-empty and free of the quote and
bracket characters that the conversion strips (deepdiff would render other
keys differently, outside the claim's bracketed form). -/
def cleanKey (k : String) : Bool := !k.isEmpty && k.toList.all cleanChar

def cleanSeg : Seg → Bool
  | .key k => cleanKey k
  | .idx _ => true

theorem digitChar_isDigit (d : Nat) : (digitChar d).isDigit = true := by
  unfold digitChar
  split <;> rfl

theorem natDigitsAux_digits : ∀ fuel n c, c ∈ natDigitsAux fuel n → c.isDigit = true := by
  intro fuel
  induction fuel with
  | zero =>
    intro n c hc
    simp only [natDigitsAux, List.mem_singleton] at hc
    subst hc
    exact digitChar_isDigit _
  | succ fuel ih =>
    intro n c hc
    rw [natDigitsAux] at hc
    split at hc
    · simp only [List.mem_singleton] at hc
      subst hc
      exact digitChar_isDigit _
    · rcases List.mem_append.mp hc with h | h
      · exact ih _ c h
      · simp only [List.mem_singleton] at h
        subst h
        exact digitChar_isDigit _

theorem natDigits_digits {n : Nat} {c : Char} (h : c ∈ natDigits n) :
    c.isDigit = true := natDigitsAux_digits n n c h

theorem natDigitsAux_ne_nil : ∀ fuel n, natDigitsAux fuel n ≠ [] := by
  intro fuel
  cases fuel with
  | zero => intro n h; simp [natDigitsAux] at h
  | succ fuel =>
    intro n h
    rw [natDigitsAux] at h
    split at h
    · simp at h
    · exact absurd h (by simp)

theorem natDigits_ne_nil (n : Nat) : natDigits n ≠ [] := natDigitsAux_ne_nil n n

theorem natDigits_head (n : Nat) :
    ∃ d ds, natDigits n = d :: ds ∧ d.isDigit = true := by
  cases hd : natDigits n with
  | nil => exact absurd hd (natDigits_ne_nil n)
  | cons d ds =>
    exact ⟨d, ds, rfl, natDigits_digits (hd ▸ List.mem_cons_self d ds)⟩

theorem natDigits_concat (n : Nat) :
    ∃ ds d, natDigits n = ds ++ [d] ∧ d.isDigit = true := by
  rcases List.eq_nil_or_concat (natDigits n) with h | ⟨ds, d, h⟩
  · exact absurd h (natDigits_ne_nil n)
  · rw [List.concat_eq_append] at h
    refine ⟨ds, d, h, @natDigits_digits n d ?_⟩
    rw [h]
    exact List.mem_append.mpr (Or.inr (List.mem_singleton.mpr rfl))

theorem isDigit_cleanChar {c : Char} (h : c.isDigit = true) : cleanChar c = true := by
  rw [cleanChar]
  simp only [Bool.and_eq_true, decide_eq_true_eq]
  refine ⟨⟨?_, ?_⟩, ?_⟩ <;>
    · rintro rfl
      exact absurd h (by decide)

theorem cleanKey_head {k : String} (h : cleanKey k = true) :
    ∃ c cs, k.toList = c :: cs ∧ cleanChar c = true := by
  rw [cleanKey, Bool.and_eq_true] at h
  cases hk : k.toList with
  | nil =>
    exfalso
    have : k.isEmpty = true := by
      rw [String.isEmpty_iff]
      cases k
      simp at hk
      simp [hk]
    rw [this] at h
    exact absurd h.1 (by simp)
  | cons c cs =>
    refine ⟨c, cs, rfl, ?_⟩
    have := h.2
    rw [List.all_eq_true] at this
    exact this c (hk ▸ List.mem_cons_self c cs)

theorem cleanKey_mem {k : String} {c : Char} (h : cleanKey k = true)
    (hc : c ∈ k.toList) : cleanChar c = true := by
  rw [cleanKey, Bool.and_eq_true, List.all_eq_true] at h
  exact h.2 c hc

/-! The trailing-quote strip maps the rendered tail to the `midV`/`midW`
forms. -/

mutual

theorem stripTrailQuote_V : ∀ r x,
    stripTrailQuote (x ++ '\'' :: ']' :: renderTail r) = x ++ midV r
  | [], x => by
    show stripTrailQuote (x ++ ['\'', ']']) = x ++ midV []
    have hs : (['\'', ']']).isSuffixOf (x ++ ['\'', ']']) = true :=
      List.isSuffixOf_iff_suffix.mpr ⟨x, rfl⟩
    rw [stripTrailQuote, if_pos hs, midV, List.append_nil]
    have hlen : (x ++ ['\'', ']']).length - 2 = x.length := by simp
    rw [hlen, List.take_left x (['\'', ']'])]
  | .key k' :: r', x => by
    have h := stripTrailQuote_V r' (x ++ '\'' :: ']' :: '[' :: '\'' :: k'.toList)
    have e1 : x ++ '\'' :: ']' :: renderTail (Seg.key k' :: r') =
        (x ++ '\'' :: ']' :: '[' :: '\'' :: k'.toList) ++ '\'' :: ']' :: renderTail r' := by
      simp [renderTail, renderSeg]
    rw [e1, h, midV]
    simp
  | .idx n :: r', x => by
    obtain ⟨ds, d, hnd, hd⟩ := natDigits_concat n
    have h := stripTrailQuote_W r' (x ++ '\'' :: ']' :: '[' :: ds) d hd
    have e1 : x ++ '\'' :: ']' :: renderTail (Seg.idx n :: r') =
        ((x ++ '\'' :: ']' :: '[' :: ds) ++ [d]) ++ ']' :: renderTail r' := by
      simp [renderTail, renderSeg, hnd]
    rw [e1, h, midV, hnd]
    simp

theorem stripTrailQuote_W : ∀ r x d, d.isDigit = true →
    stripTrailQuote ((x ++ [d]) ++ ']' :: renderTail r) = (x ++ [d]) ++ midW r
  | [], x, d, hd => by
    show stripTrailQuote ((x ++ [d]) ++ [']']) = (x ++ [d]) ++ midW []
    rw [stripTrailQuote, if_neg, midW]
    intro hsuf
    rw [List.isSuffixOf_iff_suffix] at hsuf
    obtain ⟨t, ht⟩ := hsuf
    have ht' : t ++ ['\'', ']'] = x ++ [d, ']'] := by
      rw [ht]; simp
    obtain ⟨-, h2⟩ := List.append_inj' ht' (by simp)
    have : d = '\'' := by
      have := congrArg (fun l => l.get? 0) h2
      simp at this
      exact this.symm
    rw [this] at hd
    exact absurd hd (by decide)
  | .key k' :: r', x, d, hd => by
    have h := stripTrailQuote_V r' ((x ++ [d]) ++ ']' :: '[' :: '\'' :: k'.toList)
    have e1 : (x ++ [d]) ++ ']' :: renderTail (Seg.key k' :: r') =
        ((x ++ [d]) ++ ']' :: '[' :: '\'' :: k'.toList) ++ '\'' :: ']' :: renderTail r' := by
      simp [renderTail, renderSeg]
    rw [e1, h, midW]
    simp
  | .idx n :: r', x, d, hd => by
    obtain ⟨ds, d', hnd, hd'⟩ := natDigits_concat n
    have h := stripTrailQuote_W r' ((x ++ [d]) ++ ']' :: '[' :: ds) d' hd'
    have e1 : (x ++ [d]) ++ ']' :: renderTail (Seg.idx n :: r') =
        (((x ++ [d]) ++ ']' :: '[' :: ds) ++ [d']) ++ ']' :: renderTail r' := by
      simp [renderTail, renderSeg, hnd]
    rw [e1, h, midW, hnd]
    simp

end

/-- A replacement pass walks over characters that cannot start the
pattern. -/
theorem replaceAll_skip {p : Char} {pat rep : List Char} :
    ∀ {x s : List Char}, p ∉ x →
      replaceAll p pat rep (x ++ s) = x ++ replaceAll p pat rep s := by
  intro x
  induction x with
  | nil => intro s _; simp
  | cons c x' ih =>
    intro s hp
    simp only [List.mem_cons, not_or] at hp
    have hc : (p == c) = false := by
      simp only [beq_eq_false_iff_ne, Ne]
      exact hp.1
    rw [List.cons_append, replaceAll_cons, if_neg (by
      intro habs
      simp only [List.isPrefixOf, Bool.and_eq_true] at habs
      rw [hc] at habs
      exact absurd habs.1 (by simp)), ih hp.2]
    simp

/-- A replacement pass fires on an exact pattern occurrence. -/
theorem replaceAll_match (p : Char) (pat rep s : List Char) :
    replaceAll p pat rep ((p :: pat) ++ s) = rep ++ replaceAll p pat rep s := by
  have hpre : (p :: pat).isPrefixOf ((p :: pat) ++ s) = true :=
    List.isPrefixOf_iff_prefix.mpr ⟨s, rfl⟩
  rw [List.cons_append, replaceAll_cons, if_pos (by rw [← List.cons_append]; exact hpre)]
  congr 1
  rw [List.drop_left pat s]

theorem quote_not_mem_of_clean {x : List Char} (h : ∀ c ∈ x, cleanChar c = true) :
    '\'' ∉ x := by
  intro hm
  have := h _ hm
  exact absurd this (by decide)

theorem lbracket_not_mem_of_clean {x : List Char} (h : ∀ c ∈ x, cleanChar c = true) :
    '[' ∉ x := by
  intro hm
  have := h _ hm
  exact absurd this (by decide)

theorem rbracket_not_mem_of_clean {x : List Char} (h : ∀ c ∈ x, cleanChar c = true) :
    ']' ∉ x := by
  intro hm
  have := h _ hm
  exact absurd this (by decide)

theorem digits_clean {x : List Char} (h : ∀ c ∈ x, c.isDigit = true) :
    ∀ c ∈ x, cleanChar c = true := fun c hc => isDigit_cleanChar (h c hc)

/-! The `']['`→`.` pass maps `midV`/`midW` to `p3V`/`p3W`. -/

theorem natDigits_no_quote (n : Nat) : '\'' ∉ natDigits n :=
  quote_not_mem_of_clean (digits_clean fun _ hc => natDigits_digits hc)

mutual

theorem pass3_V : ∀ r, r.all cleanSeg = true →
    replaceAll '\'' [']', '[', '\''] ['.'] (midV r) = p3V r
  | [], _ => rfl
  | .key k :: r, h => by
    rw [List.all_cons, Bool.and_eq_true] at h
    have hknot : '\'' ∉ k.toList :=
      quote_not_mem_of_clean fun c hc => cleanKey_mem h.1 hc
    have e : midV (Seg.key k :: r) = ('\'' :: [']', '[', '\'']) ++ (k.toList ++ midV r) := rfl
    rw [e, replaceAll_match, replaceAll_skip hknot, pass3_V r h.2, p3V]
    rfl
  | .idx n :: r, h => by
    rw [List.all_cons, Bool.and_eq_true] at h
    obtain ⟨d, ds, hnd, hd⟩ := natDigits_head n
    have hnq : '\'' ∉ ']' :: '[' :: natDigits n := by
      simp only [List.mem_cons, not_or]
      exact ⟨by decide, by decide, natDigits_no_quote n⟩
    rw [midV, replaceAll_cons, if_neg (by
      intro habs
      rw [hnd] at habs
      simp only [List.isPrefixOf, Bool.and_eq_true, beq_iff_eq] at habs
      have hq : ('\'' : Char) = d := by tauto
      rw [← hq] at hd
      exact absurd hd (by decide))]
    have e : ']' :: '[' :: (natDigits n ++ midW r) =
        (']' :: '[' :: natDigits n) ++ midW r := by simp
    rw [e, replaceAll_skip hnq, pass3_W r h.2, p3V]
    simp

theorem pass3_W : ∀ r, r.all cleanSeg = true →
    replaceAll '\'' [']', '[', '\''] ['.'] (midW r) = p3W r
  | [], _ => by
    rw [midW, replaceAll_cons, if_neg (by simp [List.isPrefixOf]), p3W]
    rfl
  | .key k :: r, h => by
    rw [List.all_cons, Bool.and_eq_true] at h
    obtain ⟨c0, k', hk, hc0⟩ := cleanKey_head h.1
    have hknot : '\'' ∉ k.toList :=
      quote_not_mem_of_clean fun c hc => cleanKey_mem h.1 hc
    have hnq : '\'' ∉ [']', '['] := by decide
    have e : midW (Seg.key k :: r) = ([']', '[']) ++ ('\'' :: (k.toList ++ midV r)) := rfl
    rw [e, replaceAll_skip hnq, replaceAll_cons, if_neg (by
      intro habs
      rw [hk] at habs
      simp only [List.isPrefixOf, Bool.and_eq_true, beq_iff_eq] at habs
      have hq : (']' : Char) = c0 := by tauto
      rw [← hq] at hc0
      exact absurd hc0 (by decide))]
    rw [replaceAll_skip hknot, pass3_V r h.2, p3W]
    rfl
  | .idx n :: r, h => by
    rw [List.all_cons, Bool.and_eq_true] at h
    have hnq : '\'' ∉ ']' :: '[' :: natDigits n := by
      simp only [List.mem_cons, not_or]
      exact ⟨by decide, by decide, natDigits_no_quote n⟩
    have e : midW (Seg.idx n :: r) = (']' :: '[' :: natDigits n) ++ midW r := by
      rw [midW]; simp
    rw [e, replaceAll_skip hnq, pass3_W r h.2, p3W]
    simp

end

/-! The `][`→`.` pass maps `p3V`/`p3W` to `p4V`/`p4W`. -/

theorem natDigits_no_rbracket (n : Nat) : ']' ∉ natDigits n :=
  rbracket_not_mem_of_clean (digits_clean fun _ hc => natDigits_digits hc)

mutual

theorem pass4_V : ∀ r, r.all cleanSeg = true →
    replaceAll ']' ['['] ['.'] (p3V r) = p4V r
  | [], _ => rfl
  | .key k :: r, h => by
    rw [List.all_cons, Bool.and_eq_true] at h
    have hknot : ']' ∉ '.' :: k.toList := by
      simp only [List.mem_cons, not_or]
      exact ⟨by decide, rbracket_not_mem_of_clean fun c hc => cleanKey_mem h.1 hc⟩
    have e : p3V (Seg.key k :: r) = ('.' :: k.toList) ++ p3V r := rfl
    rw [e, replaceAll_skip hknot, pass4_V r h.2, p4V]
    rfl
  | .idx n :: r, h => by
    rw [List.all_cons, Bool.and_eq_true] at h
    have e : p3V (Seg.idx n :: r) = ['\''] ++ ((']' :: ['[']) ++ (natDigits n ++ p3W r)) := rfl
    rw [e, replaceAll_skip (by decide : ']' ∉ ['\'']), replaceAll_match,
      replaceAll_skip (natDigits_no_rbracket n), pass4_W r h.2, p4V]
    simp

theorem pass4_W : ∀ r, r.all cleanSeg = true →
    replaceAll ']' ['['] ['.'] (p3W r) = p4W r
  | [], _ => by
    rw [p3W, replaceAll_cons, if_neg (by simp [List.isPrefixOf]), replaceAll_nil, p4W]
  | .key k :: r, h => by
    rw [List.all_cons, Bool.and_eq_true] at h
    have hknot : ']' ∉ '\'' :: k.toList := by
      simp only [List.mem_cons, not_or]
      exact ⟨by decide, rbracket_not_mem_of_clean fun c hc => cleanKey_mem h.1 hc⟩
    have e : p3W (Seg.key k :: r) = ((']' :: ['[']) ++ (('\'' :: k.toList) ++ p3V r)) := rfl
    rw [e, replaceAll_match, replaceAll_skip hknot, pass4_V r h.2, p4W]
    rfl
  | .idx n :: r, h => by
    rw [List.all_cons, Bool.and_eq_true] at h
    have e : p3W (Seg.idx n :: r) = ((']' :: ['[']) ++ (natDigits n ++ p3W r)) := rfl
    rw [e, replaceAll_match, replaceAll_skip (natDigits_no_rbracket n), pass4_W r h.2, p4W]
    simp

end

/-! The three `removeChar` passes amount to one filter by `cleanChar`, and
that filter sends `p4V`/`p4W` to the dotted rendering of the path. -/

theorem removeChar_removeChar_removeChar (cs : List Char) :
    removeChar ']' (removeChar '[' (removeChar '\'' cs)) = cs.filter cleanChar := by
  simp only [removeChar, List.filter_filter]
  apply List.filter_congr
  intro c _
  by_cases h1 : c = '\'' <;> by_cases h2 : c = '[' <;> by_cases h3 : c = ']' <;>
    simp [cleanChar, h1, h2, h3]

theorem filter_clean_of_clean {x : List Char} (h : ∀ c ∈ x, cleanChar c = true) :
    x.filter cleanChar = x :=
  List.filter_eq_self.mpr h

mutual

theorem clean_p4V : ∀ r, r.all cleanSeg = true →
    (p4V r).filter cleanChar = r.flatMap fun s => '.' :: segChars s
  | [], _ => rfl
  | .key k :: r, h => by
    rw [List.all_cons, Bool.and_eq_true] at h
    rw [p4V, List.flatMap_cons]
    show List.filter cleanChar (('.' :: k.toList) ++ p4V r) = _
    rw [List.filter_append, List.filter_cons_of_pos (by decide),
      filter_clean_of_clean fun c hc => cleanKey_mem h.1 hc, clean_p4V r h.2, segChars]
  | .idx n :: r, h => by
    rw [List.all_cons, Bool.and_eq_true] at h
    rw [p4V, List.flatMap_cons]
    show List.filter cleanChar (('\'' :: '.' :: natDigits n) ++ p4W r) = _
    rw [List.filter_append, List.filter_cons_of_neg (by decide),
      List.filter_cons_of_pos (by decide),
      filter_clean_of_clean (digits_clean fun c hc => natDigits_digits hc),
      clean_p4W r h.2, segChars]

theorem clean_p4W : ∀ r, r.all cleanSeg = true →
    (p4W r).filter cleanChar = r.flatMap fun s => '.' :: segChars s
  | [], _ => rfl
  | .key k :: r, h => by
    rw [List.all_cons, Bool.and_eq_true] at h
    rw [p4W, List.flatMap_cons]
    show List.filter cleanChar (('.' :: '\'' :: k.toList) ++ p4V r) = _
    rw [List.filter_append, List.filter_cons_of_pos (by decide),
      List.filter_cons_of_neg (by decide),
      filter_clean_of_clean fun c hc => cleanKey_mem h.1 hc, clean_p4V r h.2, segChars]
  | .idx n :: r, h => by
    rw [List.all_cons, Bool.and_eq_true] at h
    rw [p4W, List.flatMap_cons]
    show List.filter cleanChar (('.' :: natDigits n) ++ p4W r) = _
    rw [List.filter_append, List.filter_cons_of_pos (by decide),
      filter_clean_of_clean (digits_clean fun c hc => natDigits_digits hc),
      clean_p4W r h.2, segChars]

end

/-- C7: for every deepdiff-style bracketed path over a mapping — a leading
`root['k']` segment followed by arbitrarily deep mixed key/index segments
(keys non-empty and free of the quote/bracket characters, as deepdiff
renders plain mapping keys) — `_convert_path_to_key_name` strips the root
marker and joins the segments with dots: it sends the rendered path
`root['k']...` to the dotted form `k.seg1.seg2...`, covering in particular
`root['tags']['totalAmount']` → `tags.totalAmount`,
`root['security_groups'][0]` → `security_groups.0` and
`root['a']['b']['c']` → `a.b.c`. -/
theorem convert_path_to_key_name_spec (k : String) (segs : Path)
    (hk : cleanKey k = true) (hs : segs.all cleanSeg = true) :
    convert_path_to_key_name (renderPath (Seg.key k :: segs)) =
      dottedPath (Seg.key k :: segs) := by
  have hknq : '\'' ∉ k.toList := quote_not_mem_of_clean fun c hc => cleanKey_mem hk hc
  have hknr : ']' ∉ k.toList := rbracket_not_mem_of_clean fun c hc => cleanKey_mem hk hc
  have hfull : (renderPath (Seg.key k :: segs)).toList =
      "root['".toList ++ (k.toList ++ ('\'' :: ']' :: renderTail segs)) := by
    show "root".toList ++ renderTail (Seg.key k :: segs) = _
    rw [renderTail, List.flatMap_cons, renderSeg]
    show ['r', 'o', 'o', 't'] ++ _ = ['r', 'o', 'o', 't', '[', '\''] ++ _
    simp [renderTail]
  have hstrip : stripRoot (renderPath (Seg.key k :: segs)).toList =
      k.toList ++ ('\'' :: ']' :: renderTail segs) := by
    rw [hfull, stripRoot, if_pos (List.isPrefixOf_iff_prefix.mpr ⟨_, rfl⟩)]
    have h6 : (6 : Nat) = ("root['".toList).length := rfl
    rw [h6, List.drop_left]
  rw [convert_path_to_key_name, hstrip, stripTrailQuote_V segs k.toList,
    replaceAll_skip hknq, pass3_V segs hs,
    replaceAll_skip hknr, pass4_V segs hs,
    removeChar_removeChar_removeChar, List.filter_append,
    filter_clean_of_clean fun c hc => cleanKey_mem hk hc, clean_p4V segs hs]
  rfl

/-- Witness for C7 at the spec's own example `root['security_groups'][0]`,
which converts to `security_groups.0`. -/
theorem convert_path_to_key_name_spec_witness :
    convert_path_to_key_name (renderPath [Seg.key "security_groups", Seg.idx 0]) =
      "security_groups.0" :=
  Eq.trans
    (convert_path_to_key_name_spec "security_groups" [Seg.idx 0] (by decide) (by decide))
    (by decide)

end Firefly
